import Mathlib

/-!
Verification development for the fuzzyfinder repository.

The Python sources are shallowly embedded as Lean functions:

* `src/fuzzyfinder/record.py`    — tokeniser (`Record.tokenise_value`),
  record views (`tokenised`, `tokenised_including_mispellings`,
  `token_probabilities`, `tokens_in_order_of_rarity`),
  `get_token_proportion`;
* `src/fuzzyfinder/comparison.py` — `leven_ratio`, `RecordComparisonScorer`;
* `src/fuzzyfinder/database.py`  — `SearchDatabase` (constructor checks,
  insert-data computation, bulk insert, one-by-one fallback,
  `write_list_dicts_parallel`, counter flush, stats rebuild,
  `find_potental_matches` / `find_potential_matches_as_pandas`);
* `src/fuzzyfinder/finder.py`    — `MatchFinder` (query dedup, saturation
  discard, candidate admission, stop predicate, search strategies).

Python strings are modelled as `List Char` over their ASCII fragment
(the regular expressions `\s`, `\w`, `[A-Z]`, `[0-9]` and `str.upper`
are embedded with ASCII semantics).  Numbers computed by the code in
floating point are modelled exactly over `ℚ` (and `ℝ` where a logarithm
appears).  Code that can raise a Python exception is modelled with
`Option`/`Except`.  External collaborators (the double-metaphone
function, the Levenshtein distance, the FTS index and random choices)
are parameters of the embedding.
-/

namespace Fuzzy

/-- A Python-ish string: a list of characters. -/
abbrev Str := List Char

/-- Python regex `\s` (ASCII fragment): space, tab, newline, carriage
return, vertical tab, form feed.  From the regexes in
`record.py::tokenise_value`. -/
def isWS (c : Char) : Bool :=
  c == ' ' || c == '\t' || c == '\n' || c == '\r' ||
    c == Char.ofNat 11 || c == Char.ofNat 12

/-- Python regex `\w` (ASCII fragment): letters, digits, underscore. -/
def isWordChar (c : Char) : Bool :=
  ('A' ≤ c && c ≤ 'Z') || ('a' ≤ c && c ≤ 'z') ||
    ('0' ≤ c && c ≤ '9') || c == '_'

/-- Character class `[A-Z]` used in the boundary-splitting regexes of
`tokenise_value`. -/
def isUpperAZ (c : Char) : Bool := 'A' ≤ c && c ≤ 'Z'

/-- Character class `[0-9]` (`\d`, ASCII) of the boundary-splitting
regexes. -/
def isDigit09 (c : Char) : Bool := '0' ≤ c && c ≤ '9'

/-- Python `str.upper` on the ASCII fragment: map `a..z` to `A..Z`. -/
def pyToUpper (c : Char) : Char :=
  if 'a' ≤ c ∧ c ≤ 'z' then Char.ofNat (c.toNat - 32) else c

/-- Fuel-driven worker for `collapseRun` (structural recursion so that
the kernel can evaluate it). -/
def collapseRunF : ℕ → Str → Str
  | 0, r => r
  | n + 1, r => if 2 ≤ r.length then ' ' :: collapseRunF n (r.drop 100) else r

/-- One maximal whitespace run processed by `re.sub(r"\s{2,100}", " ", v)`:
the regex greedily eats up to 100 whitespace characters per match and
replaces the match with a single space; a trailing single whitespace
character of the run is left untouched. -/
def collapseRun (r : Str) : Str := collapseRunF r.length r

theorem collapseRunF_congr : ∀ (n m : ℕ) (r : Str), r.length ≤ n →
    r.length ≤ m → collapseRunF n r = collapseRunF m r
  | 0, 0, _, _, _ => rfl
  | 0, _ + 1, r, hn, _ => by
    have : r = [] := List.length_eq_zero.mp (Nat.le_zero.mp hn)
    subst this
    simp [collapseRunF]
  | _ + 1, 0, r, _, hm => by
    have : r = [] := List.length_eq_zero.mp (Nat.le_zero.mp hm)
    subst this
    simp [collapseRunF]
  | n + 1, m + 1, r, hn, hm => by
    simp only [collapseRunF]
    by_cases h2 : 2 ≤ r.length
    · rw [if_pos h2, if_pos h2,
        collapseRunF_congr n m (r.drop 100)
          (by simp only [List.length_drop]; omega)
          (by simp only [List.length_drop]; omega)]
    · rw [if_neg h2, if_neg h2]

/-- The recursion equation of `collapseRun`. -/
theorem collapseRun_eq (r : Str) :
    collapseRun r = if 2 ≤ r.length then ' ' :: collapseRun (r.drop 100)
      else r := by
  unfold collapseRun
  rw [collapseRunF_congr r.length (r.length + 1) r (Nat.le_refl _)
    (Nat.le_succ _)]
  simp only [collapseRunF]
  by_cases h2 : 2 ≤ r.length
  · rw [if_pos h2, if_pos h2,
      collapseRunF_congr r.length (r.drop 100).length (r.drop 100)
        (by simp only [List.length_drop]; omega) (Nat.le_refl _)]
  · rw [if_neg h2, if_neg h2]

/-- Fuel-driven worker for `pyCollapse`. -/
def pyCollapseF : ℕ → Str → Str
  | 0, s => s
  | n + 1, s =>
    match s with
    | [] => []
    | c :: cs =>
      if isWS c then
        collapseRun (s.takeWhile isWS) ++ pyCollapseF n (s.dropWhile isWS)
      else c :: pyCollapseF n cs

/-- `re.sub(r"\s{2,100}", " ", v)` from `tokenise_value` (lines 97 and
106 of `record.py`): each maximal whitespace run is rewritten by
`collapseRun`; other characters are kept. -/
def pyCollapse (s : Str) : Str := pyCollapseF s.length s

theorem length_dropWhile_le (p : Char → Bool) (l : Str) :
    (l.dropWhile p).length ≤ l.length := by
  have := List.dropWhile_sublist (p := p) (l := l)
  simpa using this.length_le

theorem pyCollapseF_congr : ∀ (n m : ℕ) (s : Str), s.length ≤ n →
    s.length ≤ m → pyCollapseF n s = pyCollapseF m s
  | 0, 0, _, _, _ => rfl
  | 0, _ + 1, s, hn, _ => by
    have : s = [] := List.length_eq_zero.mp (Nat.le_zero.mp hn)
    subst this
    simp [pyCollapseF]
  | _ + 1, 0, s, _, hm => by
    have : s = [] := List.length_eq_zero.mp (Nat.le_zero.mp hm)
    subst this
    simp [pyCollapseF]
  | n + 1, m + 1, s, hn, hm => by
    match s with
    | [] => simp [pyCollapseF]
    | c :: cs =>
      simp only [pyCollapseF]
      by_cases hws : isWS c
      · rw [if_pos hws, if_pos hws,
          pyCollapseF_congr n m ((c :: cs).dropWhile isWS) ?hle1 ?hle2]
        case hle1 =>
          have := length_dropWhile_le isWS cs
          simp only [List.dropWhile_cons, hws, if_true, List.length_cons]
            at *
          omega
        case hle2 =>
          have := length_dropWhile_le isWS cs
          simp only [List.dropWhile_cons, hws, if_true, List.length_cons]
            at *
          omega
      · rw [if_neg hws, if_neg hws,
          pyCollapseF_congr n m cs (by simp at hn; omega)
            (by simp at hm; omega)]

/-- The two recursion equations of `pyCollapse`. -/
theorem pyCollapse_nil : pyCollapse [] = [] := rfl

theorem pyCollapse_cons (c : Char) (cs : Str) :
    pyCollapse (c :: cs) =
      if isWS c then
        collapseRun ((c :: cs).takeWhile isWS) ++
          pyCollapse ((c :: cs).dropWhile isWS)
      else c :: pyCollapse cs := by
  unfold pyCollapse
  simp only [List.length_cons, pyCollapseF]
  by_cases hws : isWS c
  · rw [if_pos hws, if_pos hws,
      pyCollapseF_congr cs.length ((c :: cs).dropWhile isWS).length _ ?h1
        (Nat.le_refl _)]
    case h1 =>
      have := length_dropWhile_le isWS cs
      simp only [List.dropWhile_cons, hws, if_true]
      omega
  · rw [if_neg hws, if_neg hws]

/-- `re.sub(r"[^\w\s]", " ", v)` (line 98): every character that is
neither a word character nor whitespace becomes a space. -/
def punctToSpace (s : Str) : Str :=
  s.map (fun c => if !isWordChar c && !isWS c then ' ' else c)

/-- `re.sub` for the two-character boundary patterns of lines 101-102:
insert a space between every adjacent pair satisfying `p`. -/
def insertBetween (p : Char → Char → Bool) : Str → Str
  | [] => []
  | [c] => [c]
  | c1 :: c2 :: cs =>
    if p c1 c2 then c1 :: ' ' :: insertBetween p (c2 :: cs)
    else c1 :: insertBetween p (c2 :: cs)

/-- Fuel-driven worker for `w8Run`. -/
def w8RunF : ℕ → Str → Str
  | 0, r => r
  | n + 1, r => if 8 ≤ r.length then r.take 8 ++ ' ' :: w8RunF n (r.drop 8)
      else r

/-- One maximal word-character run processed by
`re.sub(r"(\w{8})", r"\1 ", v)` (line 105): a space is inserted after
every eight consecutive word characters. -/
def w8Run (r : Str) : Str := w8RunF r.length r

theorem w8RunF_congr : ∀ (n m : ℕ) (r : Str), r.length ≤ n →
    r.length ≤ m → w8RunF n r = w8RunF m r
  | 0, 0, _, _, _ => rfl
  | 0, _ + 1, r, hn, _ => by
    have : r = [] := List.length_eq_zero.mp (Nat.le_zero.mp hn)
    subst this
    simp [w8RunF]
  | _ + 1, 0, r, _, hm => by
    have : r = [] := List.length_eq_zero.mp (Nat.le_zero.mp hm)
    subst this
    simp [w8RunF]
  | n + 1, m + 1, r, hn, hm => by
    simp only [w8RunF]
    by_cases h8 : 8 ≤ r.length
    · rw [if_pos h8, if_pos h8,
        w8RunF_congr n m (r.drop 8)
          (by simp only [List.length_drop]; omega)
          (by simp only [List.length_drop]; omega)]
    · rw [if_neg h8, if_neg h8]

/-- The recursion equation of `w8Run`. -/
theorem w8Run_eq (r : Str) :
    w8Run r = if 8 ≤ r.length then r.take 8 ++ ' ' :: w8Run (r.drop 8)
      else r := by
  unfold w8Run
  rw [w8RunF_congr r.length (r.length + 1) r (Nat.le_refl _) (Nat.le_succ _)]
  simp only [w8RunF]
  by_cases h8 : 8 ≤ r.length
  · rw [if_pos h8, if_pos h8,
      w8RunF_congr r.length (r.drop 8).length (r.drop 8)
        (by simp only [List.length_drop]; omega) (Nat.le_refl _)]
  · rw [if_neg h8, if_neg h8]

/-- Fuel-driven worker for `pyW8`. -/
def pyW8F : ℕ → Str → Str
  | 0, s => s
  | n + 1, s =>
    match s with
    | [] => []
    | c :: cs =>
      if isWordChar c then
        w8Run (s.takeWhile isWordChar) ++ pyW8F n (s.dropWhile isWordChar)
      else c :: pyW8F n cs

/-- `re.sub(r"(\w{8})", r"\1 ", v)` over the whole string: each maximal
word run is rewritten by `w8Run`; other characters are kept. -/
def pyW8 (s : Str) : Str := pyW8F s.length s

theorem pyW8F_congr : ∀ (n m : ℕ) (s : Str), s.length ≤ n →
    s.length ≤ m → pyW8F n s = pyW8F m s
  | 0, 0, _, _, _ => rfl
  | 0, _ + 1, s, hn, _ => by
    have : s = [] := List.length_eq_zero.mp (Nat.le_zero.mp hn)
    subst this
    simp [pyW8F]
  | _ + 1, 0, s, _, hm => by
    have : s = [] := List.length_eq_zero.mp (Nat.le_zero.mp hm)
    subst this
    simp [pyW8F]
  | n + 1, m + 1, s, hn, hm => by
    match s with
    | [] => simp [pyW8F]
    | c :: cs =>
      simp only [pyW8F]
      by_cases hwc : isWordChar c
      · rw [if_pos hwc, if_pos hwc,
          pyW8F_congr n m ((c :: cs).dropWhile isWordChar) ?hle1 ?hle2]
        case hle1 =>
          have := length_dropWhile_le isWordChar cs
          simp only [List.dropWhile_cons, hwc, if_true, List.length_cons]
            at *
          omega
        case hle2 =>
          have := length_dropWhile_le isWordChar cs
          simp only [List.dropWhile_cons, hwc, if_true, List.length_cons]
            at *
          omega
      · rw [if_neg hwc, if_neg hwc,
          pyW8F_congr n m cs (by simp at hn; omega) (by simp at hm; omega)]

/-- The two recursion equations of `pyW8`. -/
theorem pyW8_nil : pyW8 [] = [] := rfl

theorem pyW8_cons (c : Char) (cs : Str) :
    pyW8 (c :: cs) =
      if isWordChar c then
        w8Run ((c :: cs).takeWhile isWordChar) ++
          pyW8 ((c :: cs).dropWhile isWordChar)
      else c :: pyW8 cs := by
  unfold pyW8
  simp only [List.length_cons, pyW8F]
  by_cases hwc : isWordChar c
  · rw [if_pos hwc, if_pos hwc,
      pyW8F_congr cs.length ((c :: cs).dropWhile isWordChar).length _ ?h1
        (Nat.le_refl _)]
    case h1 =>
      have := length_dropWhile_le isWordChar cs
      simp only [List.dropWhile_cons, hwc, if_true]
      omega
  · rw [if_neg hwc, if_neg hwc]

/-- Python `str.strip()`: remove whitespace from both ends. -/
def pyStrip (s : Str) : Str :=
  ((s.dropWhile isWS).reverse.dropWhile isWS).reverse

/-- Python `str.split(" ")`: split on every single space character;
adjacent spaces yield empty pieces, and the empty string yields one
empty piece. -/
def splitOnSpace : Str → List Str
  | [] => [[]]
  | c :: cs =>
    if c = ' ' then [] :: splitOnSpace cs
    else
      match splitOnSpace cs with
      | [] => [[c]]
      | t :: ts => (c :: t) :: ts

/-- Python `" ".join(tokens)`. -/
def joinSpace : List Str → Str
  | [] => []
  | [t] => t
  | t :: ts => t ++ ' ' :: joinSpace ts

/-- The string pipeline of `Record.tokenise_value` (record.py lines
92-110), applied once the value has been stringified:
emptiness check via `strip`, uppercase, whitespace collapse,
punctuation to spaces, the length-gated alpha/digit boundary splits,
the eight-character cap, a second collapse, strip and split. -/
def tokeniseStr (s : Str) : List Str :=
  if pyStrip s = [] then []
  else
    let v1 := s.map pyToUpper
    let v2 := pyCollapse v1
    let v3 := punctToSpace v2
    let v4 :=
      if 5 < v3.length then
        insertBetween (fun a b => isDigit09 a && isUpperAZ b)
          (insertBetween (fun a b => isUpperAZ a && isDigit09 b) v3)
      else v3
    let v5 := pyW8 v4
    let v6 := pyCollapse v5
    let v7 := pyStrip v6
    splitOnSpace v7

/-- Values a record cell can hold in the embedding: Python `None`,
a string, or an integer.  (Floating-point cells go through Python float
formatting, which is outside this embedding.) -/
inductive PyValue where
  | pynone : PyValue
  | pystr : Str → PyValue
  | pyint : ℤ → PyValue
deriving DecidableEq, Repr

/-- Python `str(value)` for the embedded values (`None` never reaches
it inside `tokenise_value`). -/
def pyStrOf : PyValue → Str
  | .pynone => 'N' :: 'o' :: 'n' :: 'e' :: []
  | .pystr s => s
  | .pyint n => (toString n).toList

/-- `Record.tokenise_value` (record.py lines 77-110) on an embedded
value: `None` yields no tokens, anything else is stringified and put
through the string pipeline. -/
def tokeniseValue : PyValue → List Str
  | .pynone => []
  | .pystr s => tokeniseStr s
  | .pyint n => tokeniseStr (toString n).toList

/-! ## Record views (record.py) -/

/-- Python dict lookup on an association list (first binding wins; a
Python dict has unique keys). -/
def dictGet {κ α : Type} [DecidableEq κ] (d : List (κ × α)) (k : κ) :
    Option α :=
  (d.find? (fun p => p.1 = k)).map (fun p => p.2)

/-- Fuel-driven worker for `dedupFirst`. -/
def dedupFirstF : ℕ → List Str → List Str
  | 0, l => l
  | n + 1, l =>
    match l with
    | [] => []
    | t :: ts => t :: dedupFirstF n (ts.filter (fun u => u ≠ t))

/-- The key order of a Python dict insertion: first occurrence wins.
Used to model iteration over `dict` keys built token by token. -/
def dedupFirst (l : List Str) : List Str := dedupFirstF l.length l

theorem dedupFirstF_congr : ∀ (n m : ℕ) (l : List Str), l.length ≤ n →
    l.length ≤ m → dedupFirstF n l = dedupFirstF m l
  | 0, 0, _, _, _ => rfl
  | 0, _ + 1, l, hn, _ => by
    have : l = [] := List.length_eq_zero.mp (Nat.le_zero.mp hn)
    subst this
    simp [dedupFirstF]
  | _ + 1, 0, l, _, hm => by
    have : l = [] := List.length_eq_zero.mp (Nat.le_zero.mp hm)
    subst this
    simp [dedupFirstF]
  | n + 1, m + 1, l, hn, hm => by
    match l with
    | [] => simp [dedupFirstF]
    | t :: ts =>
      simp only [dedupFirstF, List.cons.injEq, true_and]
      have hf := List.length_filter_le (fun u => u ≠ t) ts
      simp only [List.length_cons] at hn hm
      exact dedupFirstF_congr n m (ts.filter (fun u => u ≠ t))
        (by omega) (by omega)

/-- The recursion equations of `dedupFirst`. -/
theorem dedupFirst_nil : dedupFirst [] = [] := rfl

theorem dedupFirst_cons (t : Str) (ts : List Str) :
    dedupFirst (t :: ts) = t :: dedupFirst (ts.filter (fun u => u ≠ t)) := by
  unfold dedupFirst
  simp only [List.length_cons, dedupFirstF, List.cons.injEq, true_and]
  exact dedupFirstF_congr ts.length (ts.filter (fun u => u ≠ t)).length _
    (List.length_filter_le _ _) (Nat.le_refl _)

/-- An embedded `Record` (record.py lines 25-53), without the database
connection (which is passed separately where needed). -/
structure PyRecord where
  record_dict : List (String × PyValue)
  unique_id_col : String
  cols_to_ignore : List String
  dmeta_cols : Option (List String)
deriving DecidableEq

/-- `Record.columns_except_unique_id` (record.py lines 65-68). -/
def PyRecord.columnsExceptUniqueId (r : PyRecord) : List String :=
  (r.record_dict.map Prod.fst).filter (fun c => c ≠ r.unique_id_col)

/-- `Record.columns_to_index` (record.py lines 70-75). -/
def PyRecord.columnsToIndex (r : PyRecord) : List String :=
  ((r.record_dict.map Prod.fst).filter (fun c => c ≠ r.unique_id_col)).filter
    (fun c => c ∉ r.cols_to_ignore)

/-- `Record.tokenised` (record.py lines 112-119): the indexed columns
with tokenised values, in dict order. -/
def PyRecord.tokenised (r : PyRecord) : List (String × List Str) :=
  (r.record_dict.filter (fun p => p.1 ∈ r.columnsToIndex)).map
    (fun p => (p.1, tokeniseValue p.2))

/-- `Record.get_dmetaphone_tokens` (record.py lines 121-129).  The
double-metaphone function itself is an external collaborator; it is a
parameter `dm` returning the (primary, secondary) pair of codes. -/
def getDmetaphoneTokens (dm : Str → Str × Str) (t : Str) : List Str :=
  if 2 < t.length ∧ ¬ t.any isDigit09 then
    ((dm t).1 :: (dm t).2 :: []).filter (fun v => v ≠ [])
  else []

/-- Whether phonetic expansion applies to a column
(`dmeta_cols is None` or membership, record.py lines 143-147). -/
def PyRecord.dmetaApplies (r : PyRecord) (col : String) : Bool :=
  match r.dmeta_cols with
  | none => true
  | some l => col ∈ l

/-- `Record.tokenised_including_mispellings` (record.py lines 154-163):
for each indexed column, the tokens followed by the double-metaphone
variants of each token when the column is phonetic-expanded. -/
def PyRecord.tokensWithPhonetics (r : PyRecord) (dm : Str → Str × Str) :
    List (String × List Str) :=
  r.tokenised.map (fun p =>
    if r.dmetaApplies p.1 then
      (p.1, p.2 ++ p.2.flatMap (getDmetaphoneTokens dm))
    else p)

/-- `Record.tokenised_stringified_with_misspellings`
(record.py lines 172-177). -/
def PyRecord.concatAll (r : PyRecord) (dm : Str → Str × Str) : Str :=
  joinSpace ((r.tokensWithPhonetics dm).map Prod.snd).flatten

/-- A token-statistics lookup: `get_token_proportion`
(record.py lines 214-233) returns the proportion stored for the token
in the column's count table, or the sentinel
`"does_not_exist_in_db"` when there is no row; the sentinel is
modelled as `none`. -/
abbrev StatsLookup := String → Str → Option ℚ

/-- `Record.token_probabilities` (record.py lines 179-194): per indexed
column a dict keyed by token (first occurrence wins) holding the
proportion looked up from the store (`none` = the sentinel). -/
def PyRecord.tokenProbabilities (r : PyRecord) (dm : Str → Str × Str)
    (store : StatsLookup) : List (String × List (Str × Option ℚ)) :=
  (r.tokensWithPhonetics dm).map (fun p =>
    (p.1, (dedupFirst p.2).map (fun t => (t, store p.1 t))))

/-- `Record.tokens_in_order_of_rarity` (record.py lines 196-208):
collect the per-column (token, proportion) entries, drop the sentinel
entries, sort stably by ascending proportion, return the tokens. -/
def PyRecord.tokensInOrderOfRarity (r : PyRecord) (dm : Str → Str × Str)
    (store : StatsLookup) : List Str :=
  let entries := ((r.tokenProbabilities dm store).map Prod.snd).flatten
  let kept := entries.filter (fun p => p.2 ≠ none)
  (kept.mergeSort (fun a b => a.2.getD 0 ≤ b.2.getD 0)).map Prod.fst

/-! ## Scorer (comparison.py) -/

/-- `leven_ratio` (comparison.py lines 9-10), over exact rationals; the
Levenshtein distance is an external collaborator passed as `lev`. -/
def levenRatio (lev : Str → Str → ℕ) (s1 s2 : Str) : ℚ :=
  1 - (lev s1 s2 : ℚ) / (max s1.length s2.length : ℚ)

/-- `RecordComparisonScorer.token_is_misspelling`
(comparison.py lines 100-105). -/
def tokenIsMisspelling (lev : Str → Str → ℕ) (matchTokens : List Str)
    (t : Str) : Bool :=
  matchTokens.any (fun s => (65 : ℚ) / 100 < levenRatio lev t s)

/-- The merged per-column token-probability lookup built in
`RecordComparisonScorer.__init__` (comparison.py lines 27-36):
`{**token_probs_p[col], **token_probs_s[col]}`, falling back to the
candidate side alone when the search record lacks the column.  The
outer `Option` is a Python `KeyError` (column absent altogether); the
inner `Option ℚ` is the stored proportion, `none` being the sentinel
string. -/
def scorerTokenProb (tps tpp : List (String × List (Str × Option ℚ)))
    (col : String) (t : Str) : Option (Option ℚ) :=
  match dictGet tpp col with
  | none => none
  | some pcol =>
    match dictGet tps col with
    | none => dictGet pcol t
    | some scol => (dictGet scol t).or (dictGet pcol t)

/-- `RecordComparisonScorer._get_prob_matching`
(comparison.py lines 70-77): the product of the looked-up proportions
of the matching tokens.  A `KeyError` or a sentinel proportion reaching
the arithmetic is a Python error, modelled as `none`. -/
def probMatching (lookupP : Str → Option (Option ℚ)) (ts : List Str) :
    Option ℚ :=
  ts.foldl (fun acc t =>
    match acc, lookupP t with
    | some a, some (some p) => some (p * a)
    | _, _ => none) (some 1)

/-- `RecordComparisonScorer._get_prob_unmatching`
(comparison.py lines 79-98): each unmatched search token contributes 1
when it is a potential misspelling of a candidate token and its
looked-up proportion otherwise; the result is the reciprocal of the
product. -/
def probUnmatching (lookupP : Str → Option (Option ℚ))
    (lev : Str → Str → ℕ) (matchTokens : List Str) (ts : List Str) :
    Option ℚ :=
  (ts.foldl (fun acc t =>
    match acc with
    | none => none
    | some a =>
      if tokenIsMisspelling lev matchTokens t then some (1 * a)
      else
        match lookupP t with
        | some (some p) => some (p * a)
        | _ => none) (some 1)).map (fun prob => 1 / prob)

/-- `RecordComparisonScorer.column_probability`
(comparison.py lines 51-68). -/
def columnProbability (q m : PyRecord) (dm : Str → Str × Str)
    (store : StatsLookup) (lev : Str → Str → ℕ) (col : String) :
    Option ℚ :=
  match dictGet (q.tokensWithPhonetics dm) col,
      dictGet (m.tokensWithPhonetics dm) col with
  | some qt, some mt =>
    let matching := (dedupFirst qt).filter (fun t => t ∈ mt)
    let unmatching := (dedupFirst qt).filter (fun t => t ∉ mt)
    let lookupP := scorerTokenProb (q.tokenProbabilities dm store)
        (m.tokenProbabilities dm store) col
    match probMatching lookupP matching,
        probUnmatching lookupP lev mt unmatching with
    | some pm, some pu => some (pm * pu)
    | _, _ => none
  | _, _ => none

/-- The `probability` accumulated by `RecordComparisonScorer.score`
(comparison.py lines 38-49): the product of the column probabilities
over the search record's columns except the unique id.  The method
returns `prob_to_score(probability) = -log10(probability) / 30`
(lines 107-109); since the real logarithm has no executable code, that
last step is applied in the theorem statements via
`Option.map (fun p => -Real.logb 10 p / 30)`. -/
def scorerProbability (q m : PyRecord) (dm : Str → Str × Str)
    (store : StatsLookup) (lev : Str → Str → ℕ) : Option ℚ :=
  q.columnsExceptUniqueId.foldl (fun acc col =>
    match acc, columnProbability q m dm store lev col with
    | some a, some p => some (a * p)
    | _, _ => none) (some 1)


/-! ## Spec-side scorer formula (for the refinement claim C1) -/

/-- The per-column result of the Scorer as the specification words it
(§4.E): with `Lc`/`Rc` the phonetic-expanded token sets,
`prob_match = Π p(t,c)` over `Lc ∩ Rc`, and `prob_unmatch` the
reciprocal of the product over `Lc \ Rc` of weight 1 for misspellings
(levenshtein ratio above 0.65 against some candidate token) and
`p(t,c)` otherwise, where a proportion missing from the store counts
as 1.  This definition follows the specification text and is compared
against the code-derived `columnProbability`. -/
def specColumnResult (q m : PyRecord) (dm : Str → Str × Str)
    (store : StatsLookup) (lev : Str → Str → ℕ) (col : String) : ℚ :=
  let Lc := ((dictGet (q.tokensWithPhonetics dm) col).getD []).toFinset
  let Rc := ((dictGet (m.tokensWithPhonetics dm) col).getD []).toFinset
  let pm := ∏ t ∈ Lc ∩ Rc, (store col t).getD 1
  let w := ∏ t ∈ Lc \ Rc,
    if ∃ s ∈ Rc, (65 : ℚ) / 100 < levenRatio lev t s then 1
    else (store col t).getD 1
  pm * (1 / w)

/-! ### Supporting lemmas -/

theorem dedupFirst_induction {motive : List Str → Prop} (h0 : motive [])
    (h1 : ∀ t ts, motive (ts.filter (fun u => u ≠ t)) →
      motive (t :: ts)) : ∀ l, motive l := by
  suffices haux : ∀ (n : ℕ) (l : List Str), l.length ≤ n → motive l from
    fun l => haux l.length l (Nat.le_refl _)
  intro n
  induction n with
  | zero =>
    intro l hl
    have : l = [] := List.length_eq_zero.mp (Nat.le_zero.mp hl)
    exact this ▸ h0
  | succ n ih =>
    intro l hl
    match l with
    | [] => exact h0
    | t :: ts =>
      refine h1 t ts (ih _ ?_)
      have := List.length_filter_le (fun u => u ≠ t) ts
      simp only [List.length_cons] at hl
      omega

theorem dedupFirst_mem {t : Str} {l : List Str} :
    t ∈ dedupFirst l ↔ t ∈ l := by
  induction l using dedupFirst_induction with
  | h0 => simp [dedupFirst_nil]
  | h1 x xs ih =>
    rw [dedupFirst_cons]
    simp only [List.mem_cons, ih, List.mem_filter, decide_eq_true_eq]
    by_cases hx : t = x
    · simp [hx]
    · simp [hx]

theorem dedupFirst_nodup (l : List Str) : (dedupFirst l).Nodup := by
  induction l using dedupFirst_induction with
  | h0 => simp [dedupFirst_nil]
  | h1 t ts ih =>
    rw [dedupFirst_cons]
    simp only [List.nodup_cons]
    refine ⟨fun hmem => ?_, ih⟩
    have := dedupFirst_mem.mp hmem
    simp at this

theorem dictGet_cons {κ α : Type} [DecidableEq κ] (k x : κ) (v : α)
    (d : List (κ × α)) :
    dictGet ((x, v) :: d) k = if x = k then some v else dictGet d k := by
  by_cases h : x = k <;> simp [dictGet, List.find?, h]

theorem dictGet_dedupFirst_map {α : Type} {f : Str → α} {l : List Str}
    {t : Str} :
    dictGet ((dedupFirst l).map (fun u => (u, f u))) t =
      if t ∈ l then some (f t) else none := by
  induction l using dedupFirst_induction with
  | h0 => simp [dedupFirst_nil, dictGet]
  | h1 x xs ih =>
    by_cases hx : t = x
    · subst hx
      simp [dedupFirst_cons, List.map_cons, dictGet_cons]
    · have hne : ¬(x = t) := fun h => hx h.symm
      simp only [dedupFirst_cons, List.map_cons, dictGet_cons, hne,
        if_false]
      rw [ih]
      by_cases hmem : t ∈ xs
      · simp [List.mem_filter, hmem, hx, List.mem_cons]
      · simp [List.mem_filter, hmem, hx, List.mem_cons]

theorem probMatching_eq_of_lookup {lookupP : Str → Option (Option ℚ)}
    {f : Str → ℚ} (ts : List Str)
    (h : ∀ t ∈ ts, lookupP t = some (some (f t))) :
    probMatching lookupP ts = some ((ts.map f).prod) := by
  unfold probMatching
  suffices haux : ∀ b : ℚ,
      ts.foldl (fun acc t =>
        match acc, lookupP t with
        | some a, some (some p) => some (p * a)
        | _, _ => none) (some b) = some ((ts.map f).prod * b) by
    simpa using haux 1
  induction ts with
  | nil => intro b; simp
  | cons t ts ih =>
    intro b
    have ht : lookupP t = some (some (f t)) := h t (List.mem_cons_self t ts)
    rw [List.foldl_cons]
    have hstep : (match some b, lookupP t with
        | some a, some (some p) => some (p * a)
        | _, _ => none) = some (f t * b) := by rw [ht]
    rw [hstep, ih (fun u hu => h u (List.mem_cons_of_mem t hu)) (f t * b),
      List.map_cons, List.prod_cons]
    ring_nf

theorem probUnmatching_eq_of_lookup {lookupP : Str → Option (Option ℚ)}
    {f : Str → ℚ} (lev : Str → Str → ℕ) (mt : List Str) (ts : List Str)
    (h : ∀ t ∈ ts, tokenIsMisspelling lev mt t = false →
        lookupP t = some (some (f t))) :
    probUnmatching lookupP lev mt ts =
      some (1 / (ts.map (fun t =>
        if tokenIsMisspelling lev mt t then 1 else f t)).prod) := by
  unfold probUnmatching
  suffices haux : ∀ b : ℚ,
      ts.foldl (fun acc t =>
        match acc with
        | none => none
        | some a =>
          if tokenIsMisspelling lev mt t then some (1 * a)
          else
            match lookupP t with
            | some (some p) => some (p * a)
            | _ => none) (some b) =
        some ((ts.map (fun t =>
          if tokenIsMisspelling lev mt t then 1 else f t)).prod * b) by
    rw [haux 1]
    simp
  induction ts with
  | nil => intro b; simp
  | cons t ts ih =>
    intro b
    rw [List.foldl_cons]
    by_cases hmiss : tokenIsMisspelling lev mt t
    · have hstep : (match some b with
          | none => none
          | some a =>
            if tokenIsMisspelling lev mt t then some (1 * a)
            else
              match lookupP t with
              | some (some p) => some (p * a)
              | _ => none) = some ((1 : ℚ) * b) := by
        simp [hmiss]
      rw [hstep, ih (fun u hu hm => h u (List.mem_cons_of_mem t hu) hm)
        ((1 : ℚ) * b), List.map_cons, List.prod_cons, if_pos hmiss]
      ring_nf
    · have hb : tokenIsMisspelling lev mt t = false := by
        simpa using hmiss
      have ht := h t (List.mem_cons_self t ts) hb
      have hstep : (match some b with
          | none => none
          | some a =>
            if tokenIsMisspelling lev mt t then some (1 * a)
            else
              match lookupP t with
              | some (some p) => some (p * a)
              | _ => none) = some (f t * b) := by
        simp [hmiss, ht]
      rw [hstep, ih (fun u hu hm => h u (List.mem_cons_of_mem t hu) hm)
        (f t * b), List.map_cons, List.prod_cons, if_neg hmiss]
      ring_nf

theorem dictGet_map_val {κ α β : Type} [DecidableEq κ] (g : κ → α → β) :
    ∀ (d : List (κ × α)) (k : κ),
    dictGet (d.map (fun p => (p.1, g p.1 p.2))) k = (dictGet d k).map (g k)
  | [], _ => by simp [dictGet]
  | (x, v) :: d, k => by
    by_cases h : x = k
    · subst h
      simp [List.map_cons, dictGet_cons]
    · simp [List.map_cons, dictGet_cons, h, dictGet_map_val g d k]

theorem scorerTokenProb_q_side (q m : PyRecord) (dm : Str → Str × Str)
    (store : StatsLookup) (col : String) (qt : List Str)
    (hq : dictGet (q.tokensWithPhonetics dm) col = some qt)
    (hm : (dictGet (m.tokensWithPhonetics dm) col).isSome)
    (t : Str) (htq : t ∈ qt) :
    scorerTokenProb (q.tokenProbabilities dm store)
      (m.tokenProbabilities dm store) col t = some (store col t) := by
  obtain ⟨mt, hmt⟩ := Option.isSome_iff_exists.mp hm
  have hps : dictGet (q.tokenProbabilities dm store) col =
      some ((dedupFirst qt).map (fun u => (u, store col u))) := by
    unfold PyRecord.tokenProbabilities
    rw [dictGet_map_val (fun c toks => (dedupFirst toks).map
      (fun u => (u, store c u))) _ col, hq]
    rfl
  have hpp : dictGet (m.tokenProbabilities dm store) col =
      some ((dedupFirst mt).map (fun u => (u, store col u))) := by
    unfold PyRecord.tokenProbabilities
    rw [dictGet_map_val (fun c toks => (dedupFirst toks).map
      (fun u => (u, store c u))) _ col, hmt]
    rfl
  unfold scorerTokenProb
  rw [hpp, hps]
  show (dictGet ((dedupFirst qt).map (fun u => (u, store col u))) t).or
      (dictGet ((dedupFirst mt).map (fun u => (u, store col u))) t) =
    some (store col t)
  rw [dictGet_dedupFirst_map, if_pos htq]
  rfl

theorem columnProbability_eq (q m : PyRecord) (dm : Str → Str × Str)
    (store : StatsLookup) (lev : Str → Str → ℕ) (col : String)
    (qt mt : List Str)
    (hq : dictGet (q.tokensWithPhonetics dm) col = some qt)
    (hm : dictGet (m.tokensWithPhonetics dm) col = some mt)
    (hpres : ∀ t ∈ qt, store col t ≠ none) :
    columnProbability q m dm store lev col =
      some (specColumnResult q m dm store lev col) := by
  have hlook : ∀ t ∈ qt,
      scorerTokenProb (q.tokenProbabilities dm store)
        (m.tokenProbabilities dm store) col t =
        some (some ((store col t).getD 1)) := by
    intro t ht
    rw [scorerTokenProb_q_side q m dm store col qt hq
      (by rw [hm]; rfl) t ht]
    rcases hcase : store col t with _ | p
    · exact absurd hcase (hpres t ht)
    · rfl
  have hmatch := @probMatching_eq_of_lookup
    (scorerTokenProb (q.tokenProbabilities dm store)
      (m.tokenProbabilities dm store) col)
    (fun t => (store col t).getD 1)
    ((dedupFirst qt).filter (fun t => t ∈ mt))
    (fun t ht => hlook t (dedupFirst_mem.mp (List.mem_of_mem_filter ht)))
  have hunmatch := @probUnmatching_eq_of_lookup
    (scorerTokenProb (q.tokenProbabilities dm store)
      (m.tokenProbabilities dm store) col)
    (fun t => (store col t).getD 1) lev mt
    ((dedupFirst qt).filter (fun t => t ∉ mt))
    (fun t ht _ => hlook t (dedupFirst_mem.mp (List.mem_of_mem_filter ht)))
  unfold columnProbability
  rw [hq, hm]
  simp only [hmatch, hunmatch]
  have hnodupq := dedupFirst_nodup qt
  have hprod1 : (((dedupFirst qt).filter (fun t => t ∈ mt)).map
      (fun t => (store col t).getD 1)).prod =
      ∏ t ∈ qt.toFinset ∩ mt.toFinset, (store col t).getD 1 := by
    rw [← List.prod_toFinset _ (hnodupq.filter _)]
    refine Finset.prod_congr ?_ (fun _ _ => rfl)
    ext u
    simp [List.mem_filter, dedupFirst_mem]
  have hprod2 : (((dedupFirst qt).filter (fun t => t ∉ mt)).map
      (fun t => if tokenIsMisspelling lev mt t then 1
                else (store col t).getD 1)).prod =
      ∏ t ∈ qt.toFinset \ mt.toFinset,
        if ∃ s ∈ mt.toFinset, (65 : ℚ) / 100 < levenRatio lev t s then 1
        else (store col t).getD 1 := by
    rw [← List.prod_toFinset _ (hnodupq.filter _)]
    refine Finset.prod_congr ?_ (fun u _ => ?_)
    · ext u
      simp [List.mem_filter, dedupFirst_mem]
    · refine if_congr ?_ rfl rfl
      unfold tokenIsMisspelling
      simp [List.any_eq_true]
  rw [hprod1, hprod2]
  unfold specColumnResult
  rw [hq, hm]
  rfl

theorem scorerProbability_eq (q m : PyRecord) (dm : Str → Str × Str)
    (store : StatsLookup) (lev : Str → Str → ℕ) (g : String → ℚ)
    (h : ∀ c ∈ q.columnsExceptUniqueId,
      columnProbability q m dm store lev c = some (g c)) :
    scorerProbability q m dm store lev =
      some ((q.columnsExceptUniqueId.map g).prod) := by
  unfold scorerProbability
  suffices haux : ∀ (cols : List String),
      (∀ c ∈ cols, columnProbability q m dm store lev c = some (g c)) →
      ∀ b : ℚ, cols.foldl (fun acc col =>
        match acc, columnProbability q m dm store lev col with
        | some a, some p => some (a * p)
        | _, _ => none) (some b) = some (b * (cols.map g).prod) by
    rw [haux _ h 1, one_mul]
  intro cols
  induction cols with
  | nil => intro _ b; simp
  | cons c cols ih =>
    intro hc b
    have h1 : columnProbability q m dm store lev c = some (g c) :=
      hc c (List.mem_cons_self c cols)
    rw [List.foldl_cons]
    have hstep : (match some b, columnProbability q m dm store lev c with
        | some a, some p => some (a * p)
        | _, _ => none) = some (b * g c) := by rw [h1]
    rw [hstep, ih (fun u hu => hc u (List.mem_cons_of_mem c hu)) (b * g c),
      List.map_cons, List.prod_cons]
    ring_nf

/-- C1: for every query record `q` and candidate record `m` whose
phonetic-expanded token dictionaries cover the query's scored columns
and whose query-side tokens all have a proportion in the store, the
Scorer returns exactly
`-log10(Π_c prob_match(c) * prob_unmatch(c)) / 30`, with
`prob_match(c)` the product of `p(t, c)` over the tokens in both token
sets and `prob_unmatch(c)` the reciprocal of the product over unmatched
query-side tokens of weight 1 for misspellings (Levenshtein ratio above
0.65 against some candidate token) and `p(t, c)` otherwise. -/
theorem C1_scorer_score_formula (q m : PyRecord) (dm : Str → Str × Str)
    (store : StatsLookup) (lev : Str → Str → ℕ)
    (hnodup : (q.record_dict.map Prod.fst).Nodup)
    (hcols : ∀ col ∈ q.columnsExceptUniqueId,
      (dictGet (q.tokensWithPhonetics dm) col).isSome ∧
      (dictGet (m.tokensWithPhonetics dm) col).isSome)
    (hpres : ∀ col ∈ q.columnsExceptUniqueId,
      ∀ t ∈ (dictGet (q.tokensWithPhonetics dm) col).getD [],
        store col t ≠ none) :
    (scorerProbability q m dm store lev).map
      (fun p : ℚ => -Real.logb 10 (p : ℝ) / 30) =
    some (-Real.logb 10
      ((∏ c ∈ q.columnsExceptUniqueId.toFinset,
        specColumnResult q m dm store lev c : ℚ) : ℝ) / 30) := by
  have hcol : ∀ c ∈ q.columnsExceptUniqueId,
      columnProbability q m dm store lev c =
        some (specColumnResult q m dm store lev c) := by
    intro c hc
    obtain ⟨hqs, hms⟩ := hcols c hc
    obtain ⟨qt, hqt⟩ := Option.isSome_iff_exists.mp hqs
    obtain ⟨mt, hmt⟩ := Option.isSome_iff_exists.mp hms
    refine columnProbability_eq q m dm store lev c qt mt hqt hmt ?_
    intro t ht
    have := hpres c hc t (by rw [hqt]; exact ht)
    exact this
  rw [scorerProbability_eq q m dm store lev _ hcol]
  have hnodupcols : q.columnsExceptUniqueId.Nodup := by
    unfold PyRecord.columnsExceptUniqueId
    exact hnodup.filter _
  rw [List.prod_toFinset _ hnodupcols]
  rfl

/-- Witness for C1 at a concrete pair of records and store. -/
theorem C1_scorer_score_formula_witness :
    (scorerProbability
      ⟨[("uid", .pystr ['q']), ("name", .pystr ['b', 'o', 'b'])],
        "uid", [], none⟩
      ⟨[("uid", .pystr ['m']), ("name", .pystr ['b', 'o', 'b'])],
        "uid", [], none⟩
      (fun _ => ([], [])) (fun _ _ => some (1 / 2)) (fun _ _ => 0)).map
      (fun p : ℚ => -Real.logb 10 (p : ℝ) / 30) =
    some (-Real.logb 10
      ((∏ c ∈ (PyRecord.columnsExceptUniqueId
          ⟨[("uid", .pystr ['q']), ("name", .pystr ['b', 'o', 'b'])],
            "uid", [], none⟩).toFinset,
        specColumnResult
          ⟨[("uid", .pystr ['q']), ("name", .pystr ['b', 'o', 'b'])],
            "uid", [], none⟩
          ⟨[("uid", .pystr ['m']), ("name", .pystr ['b', 'o', 'b'])],
            "uid", [], none⟩
          (fun _ => ([], [])) (fun _ _ => some (1 / 2)) (fun _ _ => 0)
          c : ℚ) : ℝ) / 30) :=
  C1_scorer_score_formula _ _ _ _ _ (by decide) (by decide) (by decide)

/-! ## C2: tokens absent from the store -/

theorem probMatching_none {lookupP : Str → Option (Option ℚ)}
    {ts : List Str} {t : Str} (ht : t ∈ ts)
    (hl : lookupP t = some none) : probMatching lookupP ts = none := by
  unfold probMatching
  suffices haux : ∀ (us : List Str) (acc : Option ℚ), t ∈ us →
      us.foldl (fun acc u =>
        match acc, lookupP u with
        | some a, some (some p) => some (p * a)
        | _, _ => none) acc = none from haux ts (some 1) ht
  have habsorb : ∀ (us : List Str),
      us.foldl (fun acc u =>
        match acc, lookupP u with
        | some a, some (some p) => some (p * a)
        | _, _ => none) none = none := by
    intro us
    induction us with
    | nil => rfl
    | cons u us ih => simpa using ih
  intro us
  induction us with
  | nil => intro _ h; cases h
  | cons u us ih =>
    intro acc hmem
    rw [List.foldl_cons]
    by_cases hu : u = t
    · subst hu
      have hstep : (match acc, lookupP u with
          | some a, some (some p) => some (p * a)
          | _, _ => none) = none := by
        rw [hl]
        match acc with
        | none => rfl
        | some a => rfl
      rw [hstep]
      exact habsorb us
    · have : t ∈ us := by
        rcases List.mem_cons.mp hmem with h | h
        · exact absurd h.symm hu
        · exact h
      exact ih _ this

theorem probUnmatching_none {lookupP : Str → Option (Option ℚ)}
    {lev : Str → Str → ℕ} {mt : List Str} {ts : List Str} {t : Str}
    (ht : t ∈ ts) (hmiss : tokenIsMisspelling lev mt t = false)
    (hl : lookupP t = some none) :
    probUnmatching lookupP lev mt ts = none := by
  unfold probUnmatching
  suffices haux : ∀ (us : List Str) (acc : Option ℚ), t ∈ us →
      us.foldl (fun acc u =>
        match acc with
        | none => none
        | some a =>
          if tokenIsMisspelling lev mt u then some (1 * a)
          else
            match lookupP u with
            | some (some p) => some (p * a)
            | _ => none) acc = none by
    rw [haux ts (some 1) ht]
    rfl
  have habsorb : ∀ (us : List Str),
      us.foldl (fun acc u =>
        match acc with
        | none => none
        | some a =>
          if tokenIsMisspelling lev mt u then some (1 * a)
          else
            match lookupP u with
            | some (some p) => some (p * a)
            | _ => none) none = none := by
    intro us
    induction us with
    | nil => rfl
    | cons u us ih => simpa using ih
  intro us
  induction us with
  | nil => intro _ h; cases h
  | cons u us ih =>
    intro acc hmem
    rw [List.foldl_cons]
    by_cases hu : u = t
    · subst hu
      have hstep : (match acc with
          | none => none
          | some a =>
            if tokenIsMisspelling lev mt u then some (1 * a)
            else
              match lookupP u with
              | some (some p) => some (p * a)
              | _ => none) = none := by
        match acc with
        | none => rfl
        | some a => rw [hmiss]; simp [hl]
      rw [hstep]
      exact habsorb us
    · have : t ∈ us := by
        rcases List.mem_cons.mp hmem with h | h
        · exact absurd h.symm hu
        · exact h
      exact ih _ this

theorem scorerProbability_none (q m : PyRecord) (dm : Str → Str × Str)
    (store : StatsLookup) (lev : Str → Str → ℕ) {col : String}
    (hcol : col ∈ q.columnsExceptUniqueId)
    (hnone : columnProbability q m dm store lev col = none) :
    scorerProbability q m dm store lev = none := by
  unfold scorerProbability
  suffices haux : ∀ (cols : List String) (acc : Option ℚ), col ∈ cols →
      cols.foldl (fun acc c =>
        match acc, columnProbability q m dm store lev c with
        | some a, some p => some (a * p)
        | _, _ => none) acc = none from
    haux q.columnsExceptUniqueId (some 1) hcol
  have habsorb : ∀ (cols : List String),
      cols.foldl (fun acc c =>
        match acc, columnProbability q m dm store lev c with
        | some a, some p => some (a * p)
        | _, _ => none) none = none := by
    intro cols
    induction cols with
    | nil => rfl
    | cons c cols ih => simpa using ih
  intro cols
  induction cols with
  | nil => intro _ h; cases h
  | cons c cols ih =>
    intro acc hmem
    rw [List.foldl_cons]
    by_cases hc : c = col
    · subst hc
      have hstep : (match acc, columnProbability q m dm store lev c with
          | some a, some p => some (a * p)
          | _, _ => none) = none := by
        rw [hnone]
        match acc with
        | none => rfl
        | some a => rfl
      rw [hstep]
      exact habsorb cols
    · have : col ∈ cols := by
        rcases List.mem_cons.mp hmem with h | h
        · exact absurd h.symm hc
        · exact h
      exact ih _ this

/-- C2 counterexample: the records `{uid: "q", name: "bob"}` and
`{uid: "m", name: "bob"}` share the token `BOB`; with a store that
contains no proportion for any token, the claim requires proportion 1
to be used (so the Scorer would return a score), but the code fetches
the sentinel for the matching token `BOB`, the sentinel reaches the
multiplication in `_get_prob_matching`, and the Scorer fails with a
`TypeError` (modelled as `none`). -/
theorem C2_token_not_in_store_counterexample :
    scorerProbability
      ⟨[("uid", .pystr ['q']), ("name", .pystr ['b', 'o', 'b'])],
        "uid", [], none⟩
      ⟨[("uid", .pystr ['m']), ("name", .pystr ['b', 'o', 'b'])],
        "uid", [], none⟩
      (fun _ => ([], [])) (fun _ _ => none) (fun _ _ => 0) = none := by
  decide

/-- C2 (amended): a token with no proportion in the store is dropped by
`tokens_in_order_of_rarity`; the Scorer, however, only avoids the
sentinel for unmatched query tokens that pass the misspelling test
(weight 1): when the absent token is a matching token, or an unmatched
query token failing the misspelling test, the sentinel reaches the
arithmetic and the Scorer raises a `TypeError` (modelled as `none`)
instead of using proportion 1. -/
theorem C2_token_not_in_store_amended :
    (∀ (r : PyRecord) (dm : Str → Str × Str) (store : StatsLookup)
      (t : Str), (∀ c, store c t = none) →
      t ∉ r.tokensInOrderOfRarity dm store) ∧
    (∀ (q m : PyRecord) (dm : Str → Str × Str) (store : StatsLookup)
      (lev : Str → Str → ℕ) (col : String) (qt mt : List Str) (t : Str),
      dictGet (q.tokensWithPhonetics dm) col = some qt →
      dictGet (m.tokensWithPhonetics dm) col = some mt →
      col ∈ q.columnsExceptUniqueId →
      t ∈ qt → store col t = none →
      (t ∈ mt ∨ tokenIsMisspelling lev mt t = false) →
      scorerProbability q m dm store lev = none) := by
  constructor
  · intro r dm store t habsent hmem
    unfold PyRecord.tokensInOrderOfRarity at hmem
    simp only [List.mem_map] at hmem
    obtain ⟨p, hp, hpt⟩ := hmem
    have hkept := List.mem_mergeSort.mp hp
    have hpair := List.mem_filter.mp hkept
    obtain ⟨hent, hne⟩ := hpair
    simp only [List.mem_flatten, List.mem_map] at hent
    obtain ⟨lst, ⟨pcol, hpcol, hlst⟩, hplst⟩ := hent
    unfold PyRecord.tokenProbabilities at hpcol
    simp only [List.mem_map] at hpcol
    obtain ⟨ptoks, _, hpcol2⟩ := hpcol
    subst hpcol2
    subst hlst
    simp only [List.mem_map] at hplst
    obtain ⟨u, _, hup⟩ := hplst
    subst hup
    simp only at hpt hne
    subst hpt
    rw [habsent ptoks.1] at hne
    simp at hne
  · intro q m dm store lev col qt mt t hq hm hcol htq habs hcase
    refine scorerProbability_none q m dm store lev hcol ?_
    unfold columnProbability
    rw [hq, hm]
    have hlook : scorerTokenProb (q.tokenProbabilities dm store)
        (m.tokenProbabilities dm store) col t = some none := by
      rw [scorerTokenProb_q_side q m dm store col qt hq
        (by rw [hm]; rfl) t htq, habs]
    by_cases htm : t ∈ mt
    · have : probMatching (scorerTokenProb
          (q.tokenProbabilities dm store)
          (m.tokenProbabilities dm store) col)
          ((dedupFirst qt).filter (fun u => u ∈ mt)) = none := by
        refine probMatching_none ?_ hlook
        simp only [List.mem_filter, decide_eq_true_eq]
        exact ⟨dedupFirst_mem.mpr htq, htm⟩
      simp only [this]
    · have hmiss : tokenIsMisspelling lev mt t = false := by
        rcases hcase with h | h
        · exact absurd h htm
        · exact h
      have : probUnmatching (scorerTokenProb
          (q.tokenProbabilities dm store)
          (m.tokenProbabilities dm store) col) lev mt
          ((dedupFirst qt).filter (fun u => u ∉ mt)) = none := by
        refine probUnmatching_none ?_ hmiss hlook
        simp only [List.mem_filter, decide_eq_true_eq]
        exact ⟨dedupFirst_mem.mpr htq, htm⟩
      cases hpm : probMatching (scorerTokenProb
          (q.tokenProbabilities dm store)
          (m.tokenProbabilities dm store) col)
          ((dedupFirst qt).filter (fun u => u ∈ mt)) with
      | none => simp only [this, hpm]
      | some pm => simp only [this, hpm]

/-- Witness for the amended C2 at concrete inputs: with an empty store
the token `BOB` is dropped from the rarity order, and a query token
`BOB` unmatched against the candidate's `XY` (not a misspelling under a
distance function that always returns 9) makes the Scorer fail. -/
theorem C2_token_not_in_store_amended_witness :
    (('b' :: 'o' :: 'b' :: []) ∉ PyRecord.tokensInOrderOfRarity
      ⟨[("uid", .pystr ['q']), ("name", .pystr ['b', 'o', 'b'])],
        "uid", [], none⟩ (fun _ => ([], [])) (fun _ _ => none)) ∧
    scorerProbability
      ⟨[("uid", .pystr ['q']), ("name", .pystr ['b', 'o', 'b'])],
        "uid", [], none⟩
      ⟨[("uid", .pystr ['m']), ("name", .pystr ['x', 'y'])],
        "uid", [], none⟩
      (fun _ => ([], [])) (fun _ _ => none) (fun _ _ => 9) = none := by
  constructor
  · exact C2_token_not_in_store_amended.1 _ _ _ _ (fun _ => rfl)
  · exact C2_token_not_in_store_amended.2 _ _ _ _ _ "name"
      (['B', 'O', 'B'] :: []) (['X', 'Y'] :: [])
      ['B', 'O', 'B'] (by decide) (by decide) (by decide) (by decide)
      (by decide)
      (Or.inr (by simp [tokenIsMisspelling, levenRatio]; norm_num))

/-! ## Database layer (database.py) -/

/-- A record dict as handed to the database layer. -/
abbrev RecDict := List (String × PyValue)

/-- `ColumnCounters.col_token_counts`: per indexed column a
`collections.Counter` of token occurrence counts (database.py
lines 595-632). -/
abbrev Counters := List (String × List (Str × ℕ))

/-- Adding `k` occurrences of token `t` to a `Counter` (Python dict
semantics: an existing key keeps its position, a new key is appended). -/
def counterAdd (cnt : List (Str × ℕ)) (t : Str) (k : ℕ) :
    List (Str × ℕ) :=
  match cnt with
  | [] => [(t, k)]
  | (u, n) :: rest =>
    if u = t then (u, n + k) :: rest else (u, n) :: counterAdd rest t k

/-- `Counter.update(list_of_tokens)`: each token increments its count
by one. -/
def counterUpdateList (cnt : List (Str × ℕ)) (ts : List Str) :
    List (Str × ℕ) :=
  ts.foldl (fun c t => counterAdd c t 1) cnt

/-- `Counter.update(other_counter)`: counts are added. -/
def counterMerge (cnt src : List (Str × ℕ)) : List (Str × ℕ) :=
  src.foldl (fun c p => counterAdd c p.1 p.2) cnt

/-- `ColumnCounters.__init__` (database.py lines 600-607): one empty
counter per indexed column of the record. -/
def countersInit (cols : List String) : Counters :=
  cols.map (fun c => (c, []))

/-- `ColumnCounters.update_single_column` (database.py lines 623-624). -/
def countersAddCol (cs : Counters) (col : String) (ts : List Str) :
    Counters :=
  cs.map (fun p => if p.1 = col then (p.1, counterUpdateList p.2 ts) else p)

/-- `ColumnCounters.update` (database.py lines 626-629): for each of
the target's columns, add the source counter for that column; a source
missing one of the target's columns is a Python `KeyError`. -/
def countersUpdate (target src : Counters) : Except String Counters :=
  target.foldr (fun p acc => do
    let rest ← acc
    match dictGet src p.1 with
    | none => .error "KeyError"
    | some s => .ok ((p.1, counterMerge p.2 s) :: rest)) (.ok [])

/-- The value inserted into the `unique_id` TEXT column: SQLite TEXT
affinity stringifies numbers; a Python `None` binds NULL, which the
`NOT NULL` primary key rejects (modelled as `none`). -/
def keyOfUid : PyValue → Option String
  | .pynone => none
  | v => some (String.mk (pyStrOf v))

/-- The data `_record_dict_to_insert_data` (database.py lines 209-246)
computes for one record: the `(unique_id, original_record, concat_all)`
tuple and the per-column token counters.  A record without the id
column raises (`Record.__init__`). -/
structure InsertData where
  uid : PyValue
  json : RecDict
  concat : Str
  counters : Counters
deriving DecidableEq

/-- `_record_dict_to_insert_data` (database.py lines 209-246).  Note
the Python defaults `cols_to_ignore=[]` and `dmeta_cols=None`. -/
def recordDictToInsertData (rd : RecDict) (uidCol : String)
    (dm : Str → Str × Str) (colsToIgnore : List String)
    (dmetaCols : Option (List String)) : Except String InsertData :=
  match dictGet rd uidCol with
  | none => .error "KeyError: unique_id_col not in record"
  | some uidVal =>
    let rec0 : PyRecord := ⟨rd, uidCol, colsToIgnore, dmetaCols⟩
    let counters := rec0.columnsToIndex.foldl (fun cs col =>
      countersAddCol cs col
        ((dictGet (rec0.tokensWithPhonetics dm) col).getD []))
      (countersInit rec0.columnsToIndex)
    .ok ⟨uidVal, rd, rec0.concatAll dm, counters⟩

/-- The result of `_record_batch_to_insert_data`
(database.py lines 248-288). -/
structure BatchData where
  tuples : List InsertData
  counters : Counters
  originals : List RecDict

/-- The per-record loop of `_record_batch_to_insert_data`. -/
def batchGo (uidCol : String) (dm : Str → Str × Str)
    (colsToIgnore : List String) (dmetaCols : Option (List String)) :
    BatchData → List RecDict → Except String BatchData
  | b, [] => .ok b
  | b, rd :: rest =>
    match recordDictToInsertData rd uidCol dm colsToIgnore dmetaCols with
    | .error e => .error e
    | .ok d =>
      match countersUpdate b.counters d.counters with
      | .error e => .error e
      | .ok merged =>
        batchGo uidCol dm colsToIgnore dmetaCols
          ⟨b.tuples ++ [d], merged, b.originals⟩ rest

def recordBatchToInsertData (rds : List RecDict) (uidCol : String)
    (dm : Str → Str × Str) (colsToIgnore : List String)
    (dmetaCols : Option (List String)) : Except String BatchData :=
  match rds with
  | [] => .error "IndexError: record_dicts is empty"
  | r0 :: _ =>
    match dictGet r0 uidCol with
    | none => .error "KeyError: unique_id_col not in record"
    | some _ =>
      let rec0 : PyRecord := ⟨r0, uidCol, colsToIgnore, dmetaCols⟩
      batchGo uidCol dm colsToIgnore dmetaCols
        ⟨[], countersInit rec0.columnsToIndex, rds⟩ rds

/-- `_record_batch_to_insert_data` (database.py lines 248-288): the
batch counters start from the first record's column set (an empty chunk
is an `IndexError`), and every record's counters are merged into them.
The definition is above `batchGo`; this anchor comment documents the
source mapping. -/
theorem recordBatchToInsertData_def (rds : List RecDict) (u : String)
    (dm : Str → Str × Str) (ig : List String)
    (dc : Option (List String)) :
    recordBatchToInsertData rds u dm ig dc =
      match rds with
      | [] => .error "IndexError: record_dicts is empty"
      | r0 :: _ =>
        match dictGet r0 u with
        | none => .error "KeyError: unique_id_col not in record"
        | some _ =>
          batchGo u dm ig dc
            ⟨[], countersInit
              (PyRecord.columnsToIndex ⟨r0, u, ig, dc⟩), rds⟩ rds := rfl

/-- The persisted database file: the `df` table, the FTS table, the
per-column token-count tables and the `db_state` keys (the JSON values
are modelled structurally). -/
structure DBFile where
  hasDf : Bool
  df : List (String × RecDict × Str)
  fts : List (String × Str)
  tokenTables : List (String × List (Str × ℕ × Option ℚ))
  kvUniqueIdCol : Option String
  kvColsToIgnore : List String
  kvDmetaCols : Option (List String)
  kvSync : String
deriving DecidableEq

/-- A `SearchDatabase` session: the file plus the in-memory attributes
set by `__init__` and the write path. -/
structure DBSession where
  file : DBFile
  colsToIgnore : List String
  dmetaCols : Option (List String)
  uniqueIdCol : Option String
  exampleCols : Option (List String)
  columnCounters : Option Counters
deriving DecidableEq

/-- `SearchDatabase.__init__` (database.py lines 27-84): on an existing
file (the `df` table exists) a truthy `cols_to_ignore` or truthy
`dmeta_cols` raises a `ValueError`; otherwise the schema is created
(`initialise_db`) or the persisted configuration is read back
(`set_*_from_db`, executed when the `df` table has rows). -/
def searchDatabaseInit (file : DBFile) (colsToIgnore : List String)
    (dmetaCols : Option (List String)) : Except String DBSession :=
  if file.hasDf then
    if colsToIgnore ≠ [] then
      .error "You cannot set cols to ignore on an existing databsae"
    else if dmetaCols.getD [] ≠ [] then
      .error "You cannot set dmeta cols on an existing databsae"
    else if file.df ≠ [] then
      .ok ⟨file, file.kvColsToIgnore, file.kvDmetaCols,
        file.kvUniqueIdCol, none, none⟩
    else
      .ok ⟨file, colsToIgnore, dmetaCols, none, none, none⟩
  else
    .ok ⟨{ file with
        hasDf := true, df := [], fts := [], tokenTables := [],
        kvUniqueIdCol := none, kvColsToIgnore := colsToIgnore,
        kvDmetaCols := dmetaCols, kvSync := "true" },
      colsToIgnore, dmetaCols, none, none, none⟩

/-- The integrity check of the `executemany` in `bulk_insert_batch`:
each row's key must be non-NULL and fresh with respect to the existing
table and the rows inserted earlier in the same statement; any
violation aborts (and rolls back) the whole statement. -/
def bulkKeysGo (existing : List String) :
    List String → List InsertData → Except Unit (List String)
  | ks, [] => .ok ks
  | ks, d :: rest =>
    match keyOfUid d.uid with
    | none => .error ()
    | some k =>
      if (existing ++ ks).contains k then .error ()
      else bulkKeysGo existing (ks ++ [k]) rest

def bulkKeys (existing : List String) (tuples : List InsertData) :
    Except Unit (List String) :=
  bulkKeysGo existing [] tuples

/-- `bulk_insert_batch` (database.py lines 290-322): `executemany` of
the df rows (an integrity violation anywhere rolls the whole batch
back), then the FTS rows, then the batch counters are merged into the
session counters.  `.error` is the raised `sqlite3.IntegrityError`. -/
def bulkInsertBatch (file : DBFile) (sessionCounters : Counters)
    (batch : BatchData) : Except Unit (DBFile × Counters) :=
  match bulkKeys (file.df.map Prod.fst) batch.tuples with
  | .error _ => .error ()
  | .ok _ =>
    let newDf := batch.tuples.map (fun d =>
      ((keyOfUid d.uid).getD "", d.json, d.concat))
    let newFts := batch.tuples.map (fun d =>
      ((keyOfUid d.uid).getD "", d.concat))
    match countersUpdate sessionCounters batch.counters with
    | .error _ => .error ()
    | .ok merged =>
      .ok ({ file with
             df := file.df ++ newDf,
             fts := file.fts ++ newFts }, merged)

/-- `insert_batch_one_by_one` (database.py lines 324-347): each record
of the failed chunk is reprocessed through
`_record_dict_to_insert_data` — with the Python default
`cols_to_ignore=[]` and `dmeta_cols=None`, since the call passes
neither — and inserted individually; an integrity error (duplicate or
NULL id) skips the record and its counter increments. -/
def insertBatchOneByOne (uidCol : String) (dm : Str → Str × Str) :
    DBFile → Counters → List RecDict →
    Except String (DBFile × Counters)
  | file, cs, [] => .ok (file, cs)
  | file, cs, rd :: rest =>
    match recordDictToInsertData rd uidCol dm [] none with
    | .error e => .error e
    | .ok d =>
      match keyOfUid d.uid with
      | none => insertBatchOneByOne uidCol dm file cs rest
      | some k =>
        if (file.df.map Prod.fst).contains k then
          insertBatchOneByOne uidCol dm file cs rest
        else
          match countersUpdate cs d.counters with
          | .error e => .error e
          | .ok merged =>
            insertBatchOneByOne uidCol dm
              { file with
                df := file.df ++ [(k, d.json, d.concat)],
                fts := file.fts ++ [(k, d.concat)] } merged rest

/-- Upsert of one `(token, delta)` into a column's count table
(`write_all_col_counters_to_db`, database.py lines 424-472): on
conflict the count is incremented and the stored proportion kept;
otherwise the row `(token, delta, NULL)` is inserted. -/
def tableUpsert (tbl : List (Str × ℕ × Option ℚ)) (t : Str) (v : ℕ) :
    List (Str × ℕ × Option ℚ) :=
  match tbl with
  | [] => [(t, v, none)]
  | (u, n, p) :: rest =>
    if u = t then (u, n + v, p) :: rest else (u, n, p) :: tableUpsert rest t v

/-- Flush one column's counter into its count table. -/
def flushCol (tbls : List (String × List (Str × ℕ × Option ℚ)))
    (col : String) (cnt : List (Str × ℕ)) :
    List (String × List (Str × ℕ × Option ℚ)) :=
  tbls.map (fun p =>
    if p.1 = col then (p.1, cnt.foldl (fun tb q => tableUpsert tb q.1 q.2) p.2)
    else p)

/-- `write_all_col_counters_to_db` (database.py lines 424-472) applied
to the token tables. -/
def flushCounters (tbls : List (String × List (Str × ℕ × Option ℚ)))
    (counters : Counters) : List (String × List (Str × ℕ × Option ℚ)) :=
  counters.foldl (fun tb p => flushCol tb p.1 p.2) tbls

/-- Fuel-driven worker for `chunkList`. -/
def chunkListF {α : Type} : ℕ → List α → ℕ → List (List α)
  | 0, _, _ => []
  | fuel + 1, l, n =>
    if l.isEmpty || n == 0 then []
    else l.take n :: chunkListF fuel (l.drop n) n

/-- `chunk_list` (database.py lines 589-592): successive `n`-sized
chunks.  (Python raises on `n = 0`; the claims assume `1 ≤ n`.) -/
def chunkList {α : Type} (l : List α) (n : ℕ) : List (List α) :=
  chunkListF l.length l n

/-- One chunk of `write_list_dicts_parallel`'s driver loop
(database.py lines 402-410): try the bulk insert; on an integrity
error, fall back to one-by-one insertion of the original dicts. -/
def processChunk (file : DBFile) (sessionCounters : Counters)
    (uidCol : String) (dm : Str → Str × Str) (colsToIgnore : List String)
    (dmetaCols : Option (List String)) (chunk : List RecDict) :
    Except String (DBFile × Counters) :=
  match recordBatchToInsertData chunk uidCol dm colsToIgnore dmetaCols with
  | .error e => .error e
  | .ok batch =>
    match bulkInsertBatch file sessionCounters batch with
    | .ok r => .ok r
    | .error _ =>
      insertBatchOneByOne uidCol dm file sessionCounters batch.originals

/-- The driver loop of `write_list_dicts_parallel`
(database.py lines 402-410) over the chunk results, in arrival order. -/
def processChunks (u : String) (dm : Str → Str × Str)
    (colsToIgnore : List String) (dmetaCols : Option (List String)) :
    DBFile → Counters → List (List RecDict) →
    Except String (DBFile × Counters)
  | f, cs, [] => .ok (f, cs)
  | f, cs, chunk :: rest =>
    match processChunk f cs u dm colsToIgnore dmetaCols chunk with
    | .error e => .error e
    | .ok (f1, cs1) => processChunks u dm colsToIgnore dmetaCols f1 cs1 rest

/-- The setup phase of `write_list_dicts_parallel`
(database.py lines 364-377): adopt the example record's indexed columns
when none are known yet (the first record must carry the id column). -/
def computeExampleCols (s : DBSession) (listDicts : List RecDict)
    (u : String) : Except String (List String) :=
  match s.exampleCols with
  | some cs => .ok cs
  | none =>
    match listDicts with
    | [] => .error "IndexError: list_dicts is empty"
    | r0 :: _ =>
      match dictGet r0 u with
      | none => .error "KeyError: unique_id_col not in record"
      | some _ =>
        .ok (PyRecord.columnsToIndex ⟨r0, u, s.colsToIgnore, s.dmetaCols⟩)

/-- `write_list_dicts_parallel` (database.py lines 349-422) followed by
the optional counter flush.  The worker pool computes chunk data purely
and the driver consumes completions in an unspecified order
(`imap_unordered`); the order actually consumed is the `order`
argument, which the theorems quantify over all permutations of
`chunk_list(list_dicts, batch_size)`. -/
def writeListDicts (s : DBSession) (listDicts : List RecDict)
    (uidCol : String) (order : List (List RecDict))
    (writeCounters : Bool) (dm : Str → Str × Str) :
    Except String DBSession :=
  let u := s.uniqueIdCol.getD uidCol
  let kvU := if s.uniqueIdCol = none then some u else s.file.kvUniqueIdCol
  match computeExampleCols s listDicts u with
  | .error e => .error e
  | .ok exCols =>
    let newTables := if s.exampleCols = none then
        s.file.tokenTables ++ exCols.map (fun c => (c, [])) else
        s.file.tokenTables
    let counters0 := s.columnCounters.getD (countersInit exCols)
    let file0 : DBFile := { s.file with
                              tokenTables := newTables,
                              kvUniqueIdCol := kvU }
    match processChunks u dm s.colsToIgnore s.dmetaCols file0 counters0
        order with
    | .error e => .error e
    | .ok (file1, counters1) =>
      let file2 := { file1 with kvSync := "false" }
      if writeCounters then
        .ok { s with
              file := { file2 with
                        tokenTables :=
                          flushCounters file2.tokenTables counters1,
                        kvSync := "true" },
              uniqueIdCol := some u,
              exampleCols := some exCols,
              columnCounters := none }
      else
        .ok { s with
              file := file2,
              uniqueIdCol := some u,
              exampleCols := some exCols,
              columnCounters := some counters1 }

/-- `_update_token_stats_tables` (database.py lines 519-533) on one
column's table: `proportion = cast(count as float) / sum(count)`; SQL
yields NULL when the table is empty or the sum is zero. -/
def updateStatsTable (tbl : List (Str × ℕ × Option ℚ)) :
    List (Str × ℕ × Option ℚ) :=
  let s : ℚ := (tbl.map (fun r => (r.2.1 : ℚ))).sum
  tbl.map (fun r =>
    (r.1, r.2.1, if s = 0 then none else some ((r.2.1 : ℚ) / s)))

/-- `build_or_replace_stats_tables` / `_update_token_stats_tables`
(database.py lines 519-536): every indexed column's table is updated. -/
def updateTokenStatsTables (cols : List String)
    (tbls : List (String × List (Str × ℕ × Option ℚ))) :
    List (String × List (Str × ℕ × Option ℚ)) :=
  tbls.map (fun p =>
    (p.1, if p.1 ∈ cols then updateStatsTable p.2 else p.2))

/-- Python dict item assignment: an existing key keeps its position and
gets the new value; a missing key is appended. -/
def pySetItem (d : RecDict) (k : String) (v : PyValue) : RecDict :=
  if (dictGet d k).isSome then
    d.map (fun p => if p.1 = k then (p.1, v) else p)
  else d ++ [(k, v)]

/-- `find_potental_matches` (database.py lines 538-560): the caller's
`search_dict` is mutated in place — a missing id key gets
`"search_record_" + uuid4().hex`, a present one gets
`str(value) + uuid4().hex` — and only then is the finder run (the
finder itself is the oracle `run`; the random hex is the `hexTok`
parameter).  Returns the caller's dict after the call together with the
finder's result. -/
def findPotentalMatches {α : Type} (uidCol : String)
    (searchDict : RecDict) (hexTok : Str) (run : RecDict → α) :
    RecDict × α :=
  let d :=
    match dictGet searchDict uidCol with
    | none =>
      pySetItem searchDict uidCol
        (.pystr ("search_record_".toList ++ hexTok))
    | some v =>
      pySetItem searchDict uidCol (.pystr (pyStrOf v ++ hexTok))
  (d, run d)

/-- `find_potential_matches_as_pandas` (database.py lines 562-586):
the search dict is deep-copied first, so the caller's mapping is left
untouched; the copy's id value additionally gets a space before the
hex suffix. -/
def findPotentialMatchesAsPandas {α : Type} (uidCol : String)
    (searchDict : RecDict) (hexTok : Str) (run : RecDict → α) :
    RecDict × α :=
  let copy := searchDict
  let d :=
    match dictGet copy uidCol with
    | none =>
      pySetItem copy uidCol (.pystr ("search_record_".toList ++ hexTok))
    | some v =>
      pySetItem copy uidCol (.pystr (pyStrOf v ++ ' ' :: hexTok))
  (searchDict, run d)

/-! ## C4: the one-by-one fallback ignores the configured columns -/

/-- C4: evaluating the code at the failing input.  A store configured
with `dmeta_cols=[]` (no phonetic expansion) ingests a chunk containing
a duplicate id; the bulk path computes `concat_all = "BOB"` for the
record, but the fallback recomputes the insert data with the Python
defaults (`cols_to_ignore=[]`, `dmeta_cols=None`), so the row actually
inserted has `concat_all = "BOB PP"` and the counters gain the phonetic
token `PP` — different from the row and increments the bulk path would
have produced. -/
theorem C4_fallback_default_config_divergence :
    ((writeListDicts
        ⟨⟨true, [], [], [], none, [], some [], "true"⟩, [], some [],
          none, none, none⟩
        [[("uid", .pystr ['1']), ("name", .pystr ['b', 'o', 'b'])],
         [("uid", .pystr ['1']), ("name", .pystr ['b', 'o', 'b'])]]
        "uid"
        (chunkList
          [[("uid", .pystr ['1']), ("name", .pystr ['b', 'o', 'b'])],
           [("uid", .pystr ['1']), ("name", .pystr ['b', 'o', 'b'])]] 2)
        true
        (fun t => if t = ['B', 'O', 'B'] then (['P', 'P'], [])
          else ([], []))).map
      (fun s => (s.file.df.map (fun p => p.2.2), s.file.tokenTables)) =
      .ok ([['B', 'O', 'B', ' ', 'P', 'P']],
        [("name", [(['B', 'O', 'B'], 1, none), (['P', 'P'], 1, none)])])) ∧
    (recordDictToInsertData
        [("uid", .pystr ['1']), ("name", .pystr ['b', 'o', 'b'])] "uid"
        (fun t => if t = ['B', 'O', 'B'] then (['P', 'P'], [])
          else ([], []))
        [] (some [])).map (fun d => d.concat) =
      .ok ['B', 'O', 'B'] ∧
    (['B', 'O', 'B'] : Str) ≠ ['B', 'O', 'B', ' ', 'P', 'P'] := by
  refine ⟨rfl, rfl, by decide⟩

/-! ## C5: stats rebuild proportions -/

/-- Every token-count delta written by the flush is the count of a
token in some record's token list, hence positive; this lemma
justifies the positivity hypothesis of the C5 theorem: `counterAdd`
with a positive delta keeps all counter values positive. -/
theorem counterAdd_pos {cnt : List (Str × ℕ)} {t : Str} {k : ℕ}
    (hk : 0 < k) (hcnt : ∀ q ∈ cnt, 0 < q.2) :
    ∀ q ∈ counterAdd cnt t k, 0 < q.2 := by
  induction cnt with
  | nil =>
    intro q hq
    simp only [counterAdd, List.mem_singleton] at hq
    simp [hq, hk]
  | cons p rest ih =>
    intro q hq
    obtain ⟨u, n⟩ := p
    simp only [counterAdd] at hq
    by_cases hu : u = t
    · rw [if_pos hu] at hq
      rcases List.mem_cons.mp hq with h | h
      · subst h
        simpa using Nat.lt_of_lt_of_le hk (Nat.le_add_left k n)
      · exact hcnt q (List.mem_cons_of_mem _ h)
    · rw [if_neg hu] at hq
      rcases List.mem_cons.mp hq with h | h
      · subst h
        exact hcnt (u, n) (List.mem_cons_self _ _)
      · exact ih (fun r hr => hcnt r (List.mem_cons_of_mem _ hr)) q h

/-- `tableUpsert` with a positive delta keeps every row count of a
table with positive counts positive. -/
theorem tableUpsert_pos {tbl : List (Str × ℕ × Option ℚ)} {t : Str}
    {v : ℕ} (hv : 0 < v) (htbl : ∀ r ∈ tbl, 0 < r.2.1) :
    ∀ r ∈ tableUpsert tbl t v, 0 < r.2.1 := by
  induction tbl with
  | nil =>
    intro r hr
    simp only [tableUpsert, List.mem_singleton] at hr
    simp [hr, hv]
  | cons p rest ih =>
    intro r hr
    obtain ⟨u, n, pr⟩ := p
    simp only [tableUpsert] at hr
    by_cases hu : u = t
    · rw [if_pos hu] at hr
      rcases List.mem_cons.mp hr with h | h
      · subst h
        simpa using Nat.lt_of_lt_of_le hv (Nat.le_add_left v n)
      · exact htbl r (List.mem_cons_of_mem _ h)
    · rw [if_neg hu] at hr
      rcases List.mem_cons.mp hr with h | h
      · subst h
        exact htbl (u, n, pr) (List.mem_cons_self _ _)
      · exact ih (fun q hq => htbl q (List.mem_cons_of_mem _ hq)) r h

/-- C5: after `build_or_replace_stats_tables()`, for every indexed
column whose table has at least one token (all stored counts are
positive, as the flush only writes positive deltas), each row's
proportion equals its count divided by the sum of counts over the
column's table, and the proportions sum to exactly 1 over ℚ. -/
theorem C5_stats_rebuild_proportions (cols : List String)
    (tbls : List (String × List (Str × ℕ × Option ℚ))) (col : String)
    (tbl : List (Str × ℕ × Option ℚ)) (hmem : col ∈ cols)
    (hget : dictGet tbls col = some tbl) (hne : tbl ≠ [])
    (hpos : ∀ r ∈ tbl, 0 < r.2.1) :
    dictGet (updateTokenStatsTables cols tbls) col =
      some (updateStatsTable tbl) ∧
    (∀ r ∈ updateStatsTable tbl,
      r.2.2 = some ((r.2.1 : ℚ) /
        (tbl.map (fun q => (q.2.1 : ℚ))).sum)) ∧
    ((updateStatsTable tbl).map (fun r => r.2.2.getD 0)).sum = 1 := by
  set S : ℚ := (tbl.map (fun q => (q.2.1 : ℚ))).sum with hS
  have hSpos : 0 < S := by
    rw [hS]
    match tbl, hne with
    | r0 :: rest, _ =>
      have h0 : (0 : ℚ) < (r0.2.1 : ℚ) := by
        exact_mod_cast hpos r0 (List.mem_cons_self _ _)
      have hrest : (0 : ℚ) ≤ ((rest.map (fun q => (q.2.1 : ℚ))).sum) := by
        refine List.sum_nonneg ?_
        intro x hx
        simp only [List.mem_map] at hx
        obtain ⟨q, _, hq⟩ := hx
        rw [← hq]
        positivity
      simp only [List.map_cons, List.sum_cons]
      linarith
  have hSne : S ≠ 0 := ne_of_gt hSpos
  refine ⟨?_, ?_, ?_⟩
  · unfold updateTokenStatsTables
    rw [dictGet_map_val
      (fun c tb => if c ∈ cols then updateStatsTable tb else tb) tbls col,
      hget]
    simp [hmem]
  · intro r hr
    unfold updateStatsTable at hr
    simp only [List.mem_map] at hr
    obtain ⟨q, _, hq⟩ := hr
    rw [← hq]
    simp only [← hS, if_neg hSne]
  · have hmapeq : (updateStatsTable tbl).map (fun r => r.2.2.getD 0) =
        tbl.map (fun q => (q.2.1 : ℚ) * S⁻¹) := by
      unfold updateStatsTable
      rw [List.map_map]
      refine List.map_congr_left ?_
      intro q _
      simp only [Function.comp_apply, ← hS, if_neg hSne, Option.getD_some,
        div_eq_mul_inv]
    rw [hmapeq, List.sum_map_mul_right, ← hS, mul_inv_cancel₀ hSne]

/-- Witness for C5 at a one-row table. -/
theorem C5_stats_rebuild_proportions_witness :
    dictGet (updateTokenStatsTables ["name"]
      [("name", [(['B', 'O', 'B'], 2, none)])]) "name" =
      some (updateStatsTable [(['B', 'O', 'B'], 2, none)]) ∧
    (∀ r ∈ updateStatsTable [(['B', 'O', 'B'], 2, none)],
      r.2.2 = some ((r.2.1 : ℚ) /
        ([(['B', 'O', 'B'], 2, none)].map
          (fun q : Str × ℕ × Option ℚ => (q.2.1 : ℚ))).sum)) ∧
    ((updateStatsTable [(['B', 'O', 'B'], 2, none)]).map
      (fun r => r.2.2.getD 0)).sum = 1 :=
  C5_stats_rebuild_proportions ["name"]
    [("name", [(['B', 'O', 'B'], 2, none)])] "name"
    [(['B', 'O', 'B'], 2, none)] (by decide) (by decide) (by decide)
    (by decide)

/-! ## C9: reconfiguring an existing store -/

/-- C9 counterexample: opening an existing (empty) store with the
explicitly non-default `dmeta_cols=[]` does not fail — the Python
truthiness check `if dmeta_cols:` treats the empty list like the
default `None` — and the session's `dmeta_cols` silently becomes `[]`,
although the claim requires a cannot-reconfigure error. -/
theorem C9_reconfigure_counterexample :
    searchDatabaseInit ⟨true, [], [], [], none, [], none, "true"⟩ []
      (some []) =
      .ok ⟨⟨true, [], [], [], none, [], none, "true"⟩, [], some [],
        none, none, none⟩ := rfl

/-- C9 (amended): opening an existing store with a non-empty
`cols_to_ignore` or a non-empty `dmeta_cols` fails with the
cannot-reconfigure `ValueError`; the empty list for `dmeta_cols`
(non-default, but falsy) is silently accepted; and opening never
changes the persisted configuration or contents of an existing
store. -/
theorem C9_reconfigure_amended :
    (∀ (file : DBFile) (ign : List String)
      (dmeta : Option (List String)), file.hasDf = true → ign ≠ [] →
      searchDatabaseInit file ign dmeta =
        .error "You cannot set cols to ignore on an existing databsae") ∧
    (∀ (file : DBFile) (l : List String), file.hasDf = true → l ≠ [] →
      searchDatabaseInit file [] (some l) =
        .error "You cannot set dmeta cols on an existing databsae") ∧
    (∀ (file : DBFile) (ign : List String)
      (dmeta : Option (List String)) (s : DBSession),
      file.hasDf = true → searchDatabaseInit file ign dmeta = .ok s →
      s.file = file) := by
  refine ⟨?_, ?_, ?_⟩
  · intro file ign dmeta hdf hign
    unfold searchDatabaseInit
    rw [hdf, if_pos rfl, if_pos hign]
  · intro file l hdf hl
    unfold searchDatabaseInit
    rw [hdf, if_pos rfl, if_neg (by simp), if_pos (by simpa using hl)]
  · intro file ign dmeta s hdf hok
    unfold searchDatabaseInit at hok
    rw [hdf, if_pos rfl] at hok
    by_cases hign : ign ≠ []
    · rw [if_pos hign] at hok
      cases hok
    · rw [if_neg hign] at hok
      by_cases hdm : dmeta.getD [] ≠ []
      · rw [if_pos hdm] at hok
        cases hok
      · rw [if_neg hdm] at hok
        by_cases hdfne : file.df ≠ []
        · rw [if_pos hdfne] at hok
          cases hok
          rfl
        · rw [if_neg hdfne] at hok
          cases hok
          rfl

/-- Witness for the amended C9 at a concrete existing store. -/
theorem C9_reconfigure_amended_witness :
    searchDatabaseInit ⟨true, [], [], [], none, [], none, "true"⟩
        ["notes"] none =
      .error "You cannot set cols to ignore on an existing databsae" ∧
    searchDatabaseInit ⟨true, [], [], [], none, [], none, "true"⟩ []
        (some ["name"]) =
      .error "You cannot set dmeta cols on an existing databsae" ∧
    (searchDatabaseInit ⟨true, [], [], [], none, [], none, "true"⟩ []
        none).map (fun s => s.file) =
      .ok ⟨true, [], [], [], none, [], none, "true"⟩ := by
  exact ⟨C9_reconfigure_amended.1 _ _ _ rfl (by decide),
    C9_reconfigure_amended.2.1 _ _ rfl (by decide), rfl⟩

/-! ## C10: in-place mutation of the caller's search dict -/

/-- C10: `find_potental_matches` mutates the caller's mapping in place
before running the finder — a missing id key receives
`"search_record_" + hex`, a present value is replaced by
`str(value) + hex` — and the finder runs on the mutated dict, while
`find_potential_matches_as_pandas` deep-copies first and leaves the
caller's mapping unchanged. -/
theorem C10_find_potental_matches_mutation (α : Type) (uidCol : String)
    (q : RecDict) (hexTok : Str) (run : RecDict → α) :
    (dictGet q uidCol = none →
      (findPotentalMatches uidCol q hexTok run).1 =
        pySetItem q uidCol
          (.pystr ("search_record_".toList ++ hexTok))) ∧
    (∀ v, dictGet q uidCol = some v →
      (findPotentalMatches uidCol q hexTok run).1 =
        pySetItem q uidCol (.pystr (pyStrOf v ++ hexTok))) ∧
    (findPotentialMatchesAsPandas uidCol q hexTok run).1 = q ∧
    (findPotentalMatches uidCol q hexTok run).2 =
      run (findPotentalMatches uidCol q hexTok run).1 := by
  refine ⟨?_, ?_, rfl, ?_⟩
  · intro habs
    unfold findPotentalMatches
    rw [habs]
  · intro v hv
    unfold findPotentalMatches
    rw [hv]
  · unfold findPotentalMatches
    cases dictGet q uidCol <;> rfl

/-- Witness for C10 at a concrete dict with a present id value. -/
theorem C10_find_potental_matches_mutation_witness :
    (findPotentalMatches "uid" [("uid", .pystr ['7'])] ['a', 'b']
        (fun d => d.length)).1 =
      pySetItem [("uid", .pystr ['7'])] "uid"
        (.pystr (pyStrOf (.pystr ['7']) ++ ['a', 'b'])) ∧
    (findPotentialMatchesAsPandas "uid" [("uid", .pystr ['7'])]
        ['a', 'b'] (fun d => d.length)).1 = [("uid", .pystr ['7'])] :=
  ⟨(C10_find_potental_matches_mutation ℕ "uid" [("uid", .pystr ['7'])]
      ['a', 'b'] (fun d => d.length)).2.1 _ (by decide),
    (C10_find_potental_matches_mutation ℕ "uid" [("uid", .pystr ['7'])]
      ['a', 'b'] (fun d => d.length)).2.2.1⟩

/-! ## C3: idempotence of re-ingesting the same records -/

theorem chunkListF_congr {α : Type} : ∀ (fu fm : ℕ) (l : List α)
    (n : ℕ), l.length ≤ fu → l.length ≤ fm →
    chunkListF fu l n = chunkListF fm l n
  | 0, 0, _, _, _, _ => rfl
  | 0, _ + 1, l, n, hn, _ => by
    have : l = [] := List.length_eq_zero.mp (Nat.le_zero.mp hn)
    subst this
    simp [chunkListF]
  | _ + 1, 0, l, n, _, hm => by
    have : l = [] := List.length_eq_zero.mp (Nat.le_zero.mp hm)
    subst this
    simp [chunkListF]
  | fu + 1, fm + 1, l, n, hn, hm => by
    simp only [chunkListF]
    by_cases hc : l.isEmpty || n == 0
    · rw [if_pos hc, if_pos hc]
    · rw [if_neg hc, if_neg hc,
        chunkListF_congr fu fm (l.drop n) n ?h1 ?h2]
      case h1 =>
        have hne : l ≠ [] := by
          simp only [Bool.or_eq_true, List.isEmpty_iff] at hc
          tauto
        have hn0 : n ≠ 0 := by
          simp only [Bool.or_eq_true, beq_iff_eq] at hc
          tauto
        have : l.length ≠ 0 := by
          simpa using fun h => hne (List.length_eq_zero.mp h)
        simp only [List.length_drop]
        omega
      case h2 =>
        have hne : l ≠ [] := by
          simp only [Bool.or_eq_true, List.isEmpty_iff] at hc
          tauto
        have hn0 : n ≠ 0 := by
          simp only [Bool.or_eq_true, beq_iff_eq] at hc
          tauto
        have : l.length ≠ 0 := by
          simpa using fun h => hne (List.length_eq_zero.mp h)
        simp only [List.length_drop]
        omega

/-- The recursion equation of `chunkList`. -/
theorem chunkList_eq {α : Type} (l : List α) (n : ℕ) :
    chunkList l n = if l.isEmpty || n == 0 then []
      else l.take n :: chunkList (l.drop n) n := by
  unfold chunkList
  rw [chunkListF_congr l.length (l.length + 1) l n (Nat.le_refl _)
    (Nat.le_succ _)]
  simp only [chunkListF]
  by_cases hc : l.isEmpty || n == 0
  · rw [if_pos hc, if_pos hc]
  · rw [if_neg hc, if_neg hc,
      chunkListF_congr l.length (l.drop n).length (l.drop n) n ?h1
        (Nat.le_refl _)]
    case h1 => simp only [List.length_drop]; omega

theorem chunkList_flatten {α : Type} (n : ℕ) (hn : 1 ≤ n) :
    ∀ (l : List α), (chunkList l n).flatten = l := by
  suffices haux : ∀ (fuel : ℕ) (l : List α), l.length ≤ fuel →
      (chunkList l n).flatten = l from fun l => haux l.length l (Nat.le_refl _)
  intro fuel
  induction fuel with
  | zero =>
    intro l hl
    have : l = [] := List.length_eq_zero.mp (Nat.le_zero.mp hl)
    subst this
    simp [chunkList, chunkListF]
  | succ fuel ih =>
    intro l hl
    rw [chunkList_eq]
    by_cases hc : l.isEmpty || n == 0
    · simp only [hc, if_true, List.flatten_nil]
      simp only [Bool.or_eq_true, List.isEmpty_iff, beq_iff_eq] at hc
      rcases hc with h | h
      · exact h.symm
      · omega
    · rw [if_neg hc]
      have hlne : l ≠ [] := by
        simp only [Bool.or_eq_true, List.isEmpty_iff, beq_iff_eq] at hc
        intro h
        exact hc (Or.inl h)
      have hlen : l.length ≠ 0 := fun h => hlne (List.length_eq_zero.mp h)
      rw [List.flatten_cons, ih (l.drop n)
        (by simp only [List.length_drop]; omega)]
      exact List.take_append_drop n l

theorem chunkList_mem_ne_nil {α : Type} {l : List α} {n : ℕ}
    (hn : 1 ≤ n) {c : List α} (hc : c ∈ chunkList l n) : c ≠ [] := by
  suffices haux : ∀ (fuel : ℕ) (l : List α), l.length ≤ fuel →
      ∀ c ∈ chunkList l n, c ≠ [] from
    haux l.length l (Nat.le_refl _) c hc
  intro fuel
  induction fuel with
  | zero =>
    intro l hl c hc2
    have : l = [] := List.length_eq_zero.mp (Nat.le_zero.mp hl)
    subst this
    simp [chunkList, chunkListF] at hc2
  | succ fuel ih =>
    intro l hl c hc2
    rw [chunkList_eq] at hc2
    by_cases hcc : l.isEmpty || n == 0
    · rw [if_pos hcc] at hc2
      cases hc2
    · rw [if_neg hcc] at hc2
      have hlne : l ≠ [] := by
        simp only [Bool.or_eq_true, List.isEmpty_iff, beq_iff_eq] at hcc
        intro h
        exact hcc (Or.inl h)
      have hlen : l.length ≠ 0 := fun h => hlne (List.length_eq_zero.mp h)
      rcases List.mem_cons.mp hc2 with h | h
      · subst h
        intro htake
        have := congrArg List.length htake
        simp only [List.length_take, List.length_nil] at this
        omega
      · exact ih (l.drop n) (by simp only [List.length_drop]; omega) c h

theorem chunkList_mem_subset {α : Type} {l : List α} {n : ℕ}
    (hn : 1 ≤ n) {c : List α} (hc : c ∈ chunkList l n) {x : α}
    (hx : x ∈ c) : x ∈ l := by
  rw [← chunkList_flatten n hn l]
  exact List.mem_flatten.mpr ⟨c, hc, hx⟩

theorem recordDict_uid {rd : RecDict} {u : String}
    {dm : Str → Str × Str} {ig : List String}
    {dc : Option (List String)} {d : InsertData}
    (h : recordDictToInsertData rd u dm ig dc = .ok d) :
    dictGet rd u = some d.uid := by
  unfold recordDictToInsertData at h
  cases hg : dictGet rd u with
  | none => rw [hg] at h; cases h
  | some v =>
    rw [hg] at h
    cases h
    rfl

theorem recordDict_ok_of_get {rd : RecDict} {u : String}
    (dm : Str → Str × Str) (ig : List String)
    (dc : Option (List String)) {v : PyValue}
    (hv : dictGet rd u = some v) :
    ∃ d, recordDictToInsertData rd u dm ig dc = .ok d ∧ d.uid = v := by
  unfold recordDictToInsertData
  rw [hv]
  exact ⟨_, rfl, rfl⟩

theorem bulkKeysGo_ok_keys {existing : List String} :
    ∀ (ts : List InsertData) (ks0 ksf : List String),
    bulkKeysGo existing ks0 ts = .ok ksf →
    (∃ ext, ksf = ks0 ++ ext) ∧
    ∀ d ∈ ts, ∃ k, keyOfUid d.uid = some k ∧ k ∈ ksf := by
  intro ts
  induction ts with
  | nil =>
    intro ks0 ksf hf
    cases hf
    exact ⟨⟨[], by simp⟩, by simp⟩
  | cons d rest ih =>
    intro ks0 ksf hf
    unfold bulkKeysGo at hf
    cases hk : keyOfUid d.uid with
    | none =>
      simp only [hk] at hf
      exact Except.noConfusion hf
    | some k =>
      simp only [hk] at hf
      by_cases hc : (existing ++ ks0).contains k
      · rw [if_pos hc] at hf; cases hf
      · rw [if_neg hc] at hf
        obtain ⟨⟨ext, hext⟩, hrest⟩ := ih (ks0 ++ [k]) ksf hf
        refine ⟨⟨[k] ++ ext, by rw [hext, List.append_assoc]⟩, ?_⟩
        intro e he
        rcases List.mem_cons.mp he with h | h
        · subst h
          exact ⟨k, hk, by rw [hext]; simp⟩
        · exact hrest e h

theorem bulkKeys_ok_keys {existing : List String}
    {tuples : List InsertData} {ks : List String}
    (h : bulkKeys existing tuples = .ok ks) :
    ∀ d ∈ tuples, ∃ k, keyOfUid d.uid = some k ∧ k ∈ ks :=
  (bulkKeysGo_ok_keys tuples [] ks h).2

theorem bulkKeys_error_of_bad {existing : List String}
    {tuples : List InsertData} {d0 : InsertData} (hd : d0 ∈ tuples)
    (hbad : keyOfUid d0.uid = none ∨
      ∃ k, keyOfUid d0.uid = some k ∧ k ∈ existing) :
    bulkKeys existing tuples = .error () := by
  unfold bulkKeys
  suffices haux : ∀ (ts : List InsertData) (ks0 : List String),
      d0 ∈ ts → bulkKeysGo existing ks0 ts = .error () from
    haux tuples [] hd
  intro ts
  induction ts with
  | nil => intro _ h; cases h
  | cons d rest ih =>
    intro ks0 hmem
    unfold bulkKeysGo
    by_cases hd0 : d = d0
    · subst hd0
      rcases hbad with hn | ⟨k, hk, hke⟩
      · simp only [hn]
      · simp only [hk]
        rw [if_pos (by simp [List.mem_append, hke])]
    · have hmem2 : d0 ∈ rest := by
        rcases List.mem_cons.mp hmem with h | h
        · exact absurd h.symm hd0
        · exact h
      cases hk : keyOfUid d.uid with
      | none => simp only [hk]
      | some k =>
        simp only [hk]
        by_cases hc : (existing ++ ks0).contains k
        · rw [if_pos hc]
        · rw [if_neg hc]
          exact ih (ks0 ++ [k]) hmem2

theorem bulkInsert_ok_facts {file : DBFile} {cs : Counters}
    {batch : BatchData} {f2 : DBFile} {cs2 : Counters}
    (h : bulkInsertBatch file cs batch = .ok (f2, cs2)) :
    f2.df = file.df ++ batch.tuples.map (fun d =>
      ((keyOfUid d.uid).getD "", d.json, d.concat)) ∧
    f2.fts = file.fts ++ batch.tuples.map (fun d =>
      ((keyOfUid d.uid).getD "", d.concat)) ∧
    f2.tokenTables = file.tokenTables ∧ f2.hasDf = file.hasDf ∧
    f2.kvUniqueIdCol = file.kvUniqueIdCol ∧
    f2.kvColsToIgnore = file.kvColsToIgnore ∧
    f2.kvDmetaCols = file.kvDmetaCols ∧ f2.kvSync = file.kvSync ∧
    (∀ d ∈ batch.tuples, ∃ k, keyOfUid d.uid = some k ∧
      k ∈ f2.df.map Prod.fst) := by
  unfold bulkInsertBatch at h
  cases hks : bulkKeys (file.df.map Prod.fst) batch.tuples with
  | error e => rw [hks] at h; cases h
  | ok ks =>
    rw [hks] at h
    cases hcu : countersUpdate cs batch.counters with
    | error e => rw [hcu] at h; cases h
    | ok merged =>
      rw [hcu] at h
      cases h
      refine ⟨rfl, rfl, rfl, rfl, rfl, rfl, rfl, rfl, ?_⟩
      intro d hd
      obtain ⟨k, hk, _⟩ := bulkKeys_ok_keys hks d hd
      refine ⟨k, hk, ?_⟩
      simp only [List.map_append, List.mem_append, List.map_map]
      right
      refine List.mem_map.mpr ⟨d, hd, ?_⟩
      simp [hk]

theorem bulkInsert_error_of_bad {file : DBFile} {cs : Counters}
    {batch : BatchData} {d0 : InsertData} (hd : d0 ∈ batch.tuples)
    (hbad : keyOfUid d0.uid = none ∨
      ∃ k, keyOfUid d0.uid = some k ∧ k ∈ file.df.map Prod.fst) :
    bulkInsertBatch file cs batch = .error () := by
  unfold bulkInsertBatch
  rw [bulkKeys_error_of_bad hd hbad]

theorem batchGo_facts {u : String} {dm : Str → Str × Str}
    {ig : List String} {dc : Option (List String)} :
    ∀ (rds : List RecDict) (b0 b : BatchData),
    batchGo u dm ig dc b0 rds = .ok b →
    b.originals = b0.originals ∧ (∃ ext, b.tuples = b0.tuples ++ ext) ∧
    ∀ rd ∈ rds, ∃ d ∈ b.tuples,
      recordDictToInsertData rd u dm ig dc = .ok d := by
  intro rds
  induction rds with
  | nil =>
    intro b0 b hf
    cases hf
    exact ⟨rfl, ⟨[], by simp⟩, by simp⟩
  | cons rd rest ih =>
    intro b0 b hf
    unfold batchGo at hf
    cases hrd : recordDictToInsertData rd u dm ig dc with
    | error e =>
      rw [hrd] at hf
      exact Except.noConfusion hf
    | ok d =>
      simp only [hrd] at hf
      cases hcu : countersUpdate b0.counters d.counters with
      | error e =>
        simp only [hcu] at hf
        exact Except.noConfusion hf
      | ok merged =>
        simp only [hcu] at hf
        obtain ⟨horig, ⟨ext, hext⟩, hrest⟩ := ih _ b hf
        refine ⟨horig, ⟨[d] ++ ext, by rw [hext]; simp⟩, ?_⟩
        intro r hr
        rcases List.mem_cons.mp hr with h | h
        · subst h
          refine ⟨d, ?_, hrd⟩
          rw [hext]
          simp
        · exact hrest r h

theorem batch_ok_facts {rds : List RecDict} {u : String}
    {dm : Str → Str × Str} {ig : List String}
    {dc : Option (List String)} {b : BatchData}
    (h : recordBatchToInsertData rds u dm ig dc = .ok b) :
    b.originals = rds ∧
    ∀ rd ∈ rds, ∃ d ∈ b.tuples,
      recordDictToInsertData rd u dm ig dc = .ok d := by
  unfold recordBatchToInsertData at h
  cases rds with
  | nil => exact Except.noConfusion h
  | cons r0 rest =>
    cases hg : dictGet r0 u with
    | none =>
      simp only [hg] at h
      exact Except.noConfusion h
    | some v =>
      simp only [hg] at h
      obtain ⟨horig, _, hmem⟩ := batchGo_facts _ _ _ h
      exact ⟨horig, hmem⟩

theorem obo_ok_facts {u : String} {dm : Str → Str × Str} :
    ∀ (batch : List RecDict) (f : DBFile) (cs : Counters) (f2 : DBFile)
    (cs2 : Counters), insertBatchOneByOne u dm f cs batch = .ok (f2, cs2) →
    (∃ ext, f2.df = f.df ++ ext) ∧
    f2.tokenTables = f.tokenTables ∧ f2.hasDf = f.hasDf ∧
    f2.kvUniqueIdCol = f.kvUniqueIdCol ∧
    f2.kvColsToIgnore = f.kvColsToIgnore ∧
    f2.kvDmetaCols = f.kvDmetaCols ∧ f2.kvSync = f.kvSync ∧
    ∀ rd ∈ batch, ∃ v, dictGet rd u = some v ∧
      (keyOfUid v = none ∨
        ∃ k, keyOfUid v = some k ∧ k ∈ f2.df.map Prod.fst) := by
  intro batch
  induction batch with
  | nil =>
    intro f cs f2 cs2 hf
    cases hf
    exact ⟨⟨[], by simp⟩, rfl, rfl, rfl, rfl, rfl, rfl, by simp⟩
  | cons rd rest ih =>
    intro f cs f2 cs2 hf
    unfold insertBatchOneByOne at hf
    cases hrd : recordDictToInsertData rd u dm [] none with
    | error e =>
      rw [hrd] at hf
      exact Except.noConfusion hf
    | ok d =>
      rw [hrd] at hf
      have huid := recordDict_uid hrd
      cases hk : keyOfUid d.uid with
      | none =>
        simp only [hk] at hf
        obtain ⟨hext, htt, hdf, hkv1, hkv2, hkv3, hkv4, hrest⟩ :=
          ih f cs f2 cs2 hf
        refine ⟨hext, htt, hdf, hkv1, hkv2, hkv3, hkv4, ?_⟩
        intro r hr
        rcases List.mem_cons.mp hr with h | h
        · subst h
          exact ⟨d.uid, huid, Or.inl hk⟩
        · exact hrest r h
      | some k =>
        simp only [hk] at hf
        by_cases hc : (f.df.map Prod.fst).contains k
        · rw [if_pos hc] at hf
          obtain ⟨⟨ext, hext⟩, htt, hdf, hkv1, hkv2, hkv3, hkv4, hrest⟩ :=
            ih f cs f2 cs2 hf
          refine ⟨⟨ext, hext⟩, htt, hdf, hkv1, hkv2, hkv3, hkv4, ?_⟩
          intro r hr
          rcases List.mem_cons.mp hr with h | h
          · subst h
            refine ⟨d.uid, huid, Or.inr ⟨k, hk, ?_⟩⟩
            rw [hext]
            have : k ∈ f.df.map Prod.fst := by simpa using hc
            simp only [List.map_append, List.mem_append]
            exact Or.inl this
          · exact hrest r h
        · rw [if_neg hc] at hf
          cases hcu : countersUpdate cs d.counters with
          | error e =>
            rw [hcu] at hf
            exact Except.noConfusion hf
          | ok merged =>
            rw [hcu] at hf
            obtain ⟨⟨ext, hext⟩, htt, hdf, hkv1, hkv2, hkv3, hkv4, hrest⟩ :=
              ih _ merged f2 cs2 hf
            simp only at hext htt hdf hkv1 hkv2 hkv3 hkv4
            refine ⟨⟨(k, d.json, d.concat) :: ext, by
              rw [hext]; simp⟩, htt, hdf, hkv1, hkv2, hkv3, hkv4, ?_⟩
            intro r hr
            rcases List.mem_cons.mp hr with h | h
            · subst h
              refine ⟨d.uid, huid, Or.inr ⟨k, hk, ?_⟩⟩
              rw [hext]
              simp
            · obtain ⟨v, hv, hcase⟩ := hrest r h
              refine ⟨v, hv, ?_⟩
              rcases hcase with hn | ⟨k2, hk2, hkmem⟩
              · exact Or.inl hn
              · exact Or.inr ⟨k2, hk2, hkmem⟩

theorem obo_noop {u : String} {dm : Str → Str × Str} :
    ∀ (batch : List RecDict) (f : DBFile) (cs : Counters),
    (∀ rd ∈ batch, ∃ v, dictGet rd u = some v ∧
      (keyOfUid v = none ∨
        ∃ k, keyOfUid v = some k ∧ k ∈ f.df.map Prod.fst)) →
    insertBatchOneByOne u dm f cs batch = .ok (f, cs) := by
  intro batch
  induction batch with
  | nil => intro f cs _; rfl
  | cons rd rest ih =>
    intro f cs hrec
    obtain ⟨v, hv, hcase⟩ := hrec rd (List.mem_cons_self _ _)
    obtain ⟨d, hd, hduid⟩ := recordDict_ok_of_get dm [] none hv
    unfold insertBatchOneByOne
    rcases hcase with hn | ⟨k, hk, hkmem⟩
    · simp only [hd, hduid, hn]
      exact ih f cs (fun r hr => hrec r (List.mem_cons_of_mem _ hr))
    · simp only [hd, hduid, hk]
      rw [if_pos (by simpa using hkmem)]
      exact ih f cs (fun r hr => hrec r (List.mem_cons_of_mem _ hr))

theorem processChunk_ok_facts {f : DBFile} {cs : Counters} {u : String}
    {dm : Str → Str × Str} {ig : List String}
    {dc : Option (List String)} {chunk : List RecDict} {f2 : DBFile}
    {cs2 : Counters}
    (h : processChunk f cs u dm ig dc chunk = .ok (f2, cs2)) :
    (∃ ext, f2.df = f.df ++ ext) ∧
    f2.tokenTables = f.tokenTables ∧ f2.hasDf = f.hasDf ∧
    f2.kvUniqueIdCol = f.kvUniqueIdCol ∧
    f2.kvColsToIgnore = f.kvColsToIgnore ∧
    f2.kvDmetaCols = f.kvDmetaCols ∧ f2.kvSync = f.kvSync ∧
    (∃ b, recordBatchToInsertData chunk u dm ig dc = .ok b) ∧
    ∀ rd ∈ chunk, ∃ v, dictGet rd u = some v ∧
      (keyOfUid v = none ∨
        ∃ k, keyOfUid v = some k ∧ k ∈ f2.df.map Prod.fst) := by
  unfold processChunk at h
  cases hb : recordBatchToInsertData chunk u dm ig dc with
  | error e =>
    rw [hb] at h
    exact Except.noConfusion h
  | ok batch =>
    simp only [hb] at h
    obtain ⟨horig, hmem⟩ := batch_ok_facts hb
    cases hbulk : bulkInsertBatch f cs batch with
    | ok r =>
      simp only [hbulk] at h
      cases h
      obtain ⟨hdf, _, htt, hhas, hkv1, hkv2, hkv3, hkv4, hkeys⟩ :=
        bulkInsert_ok_facts hbulk
      refine ⟨⟨_, hdf⟩, htt, hhas, hkv1, hkv2, hkv3, hkv4, ⟨batch, rfl⟩, ?_⟩
      intro rd hrd
      obtain ⟨d, hd, hok⟩ := hmem rd hrd
      obtain ⟨k, hk, hkin⟩ := hkeys d hd
      exact ⟨d.uid, recordDict_uid hok, Or.inr ⟨k, hk, hkin⟩⟩
    | error e =>
      simp only [hbulk] at h
      rw [horig] at h
      obtain ⟨hdf, htt, hhas, hkv1, hkv2, hkv3, hkv4, hcov⟩ :=
        obo_ok_facts chunk f cs f2 cs2 h
      exact ⟨hdf, htt, hhas, hkv1, hkv2, hkv3, hkv4, ⟨batch, rfl⟩, hcov⟩

theorem processChunk_noop {f : DBFile} {cs : Counters} {u : String}
    {dm : Str → Str × Str} {ig : List String}
    {dc : Option (List String)} {chunk : List RecDict}
    (hne : chunk ≠ [])
    (hb : ∃ b, recordBatchToInsertData chunk u dm ig dc = .ok b)
    (hcov : ∀ rd ∈ chunk, ∃ v, dictGet rd u = some v ∧
      (keyOfUid v = none ∨
        ∃ k, keyOfUid v = some k ∧ k ∈ f.df.map Prod.fst)) :
    processChunk f cs u dm ig dc chunk = .ok (f, cs) := by
  obtain ⟨b, hb⟩ := hb
  obtain ⟨horig, hmem⟩ := batch_ok_facts hb
  match chunk, hne, hb, horig, hmem, hcov with
  | rd0 :: rest, _, hb, horig, hmem, hcov =>
    obtain ⟨d0, hd0, hok0⟩ := hmem rd0 (List.mem_cons_self _ _)
    obtain ⟨v, hv, hbad⟩ := hcov rd0 (List.mem_cons_self _ _)
    have huid : d0.uid = v := by
      have := recordDict_uid hok0
      rw [hv] at this
      exact (Option.some_inj.mp this).symm
    have hbad0 : keyOfUid d0.uid = none ∨
        ∃ k, keyOfUid d0.uid = some k ∧ k ∈ f.df.map Prod.fst := by
      rw [huid]
      exact hbad
    unfold processChunk
    simp only [hb, bulkInsert_error_of_bad hd0 hbad0, horig]
    exact obo_noop _ f cs hcov

theorem processChunks_ok_facts {u : String} {dm : Str → Str × Str}
    {ig : List String} {dc : Option (List String)} :
    ∀ (chunks : List (List RecDict)) (f : DBFile) (cs : Counters)
    (f2 : DBFile) (cs2 : Counters),
    processChunks u dm ig dc f cs chunks = .ok (f2, cs2) →
    (∃ ext, f2.df = f.df ++ ext) ∧
    f2.tokenTables = f.tokenTables ∧ f2.hasDf = f.hasDf ∧
    f2.kvUniqueIdCol = f.kvUniqueIdCol ∧
    f2.kvColsToIgnore = f.kvColsToIgnore ∧
    f2.kvDmetaCols = f.kvDmetaCols ∧ f2.kvSync = f.kvSync ∧
    (∀ c ∈ chunks, ∃ b, recordBatchToInsertData c u dm ig dc = .ok b) ∧
    ∀ c ∈ chunks, ∀ rd ∈ c, ∃ v, dictGet rd u = some v ∧
      (keyOfUid v = none ∨
        ∃ k, keyOfUid v = some k ∧ k ∈ f2.df.map Prod.fst) := by
  intro chunks
  induction chunks with
  | nil =>
    intro f cs f2 cs2 h
    cases h
    exact ⟨⟨[], by simp⟩, rfl, rfl, rfl, rfl, rfl, rfl, by simp, by simp⟩
  | cons c rest ih =>
    intro f cs f2 cs2 h
    unfold processChunks at h
    cases hc : processChunk f cs u dm ig dc c with
    | error e =>
      rw [hc] at h
      exact Except.noConfusion h
    | ok r =>
      obtain ⟨f1, cs1⟩ := r
      simp only [hc] at h
      obtain ⟨⟨e1, hdf1⟩, htt1, hhas1, hkva1, hkvb1, hkvc1, hkvd1, hb1,
        hcov1⟩ := processChunk_ok_facts hc
      obtain ⟨⟨e2, hdf2⟩, htt2, hhas2, hkva2, hkvb2, hkvc2, hkvd2, hb2,
        hcov2⟩ := ih f1 cs1 f2 cs2 h
      refine ⟨⟨e1 ++ e2, by rw [hdf2, hdf1, List.append_assoc]⟩,
        htt2.trans htt1, hhas2.trans hhas1, hkva2.trans hkva1,
        hkvb2.trans hkvb1, hkvc2.trans hkvc1, hkvd2.trans hkvd1, ?_, ?_⟩
      · intro c0 hc0
        rcases List.mem_cons.mp hc0 with hh | hh
        · subst hh
          exact hb1
        · exact hb2 c0 hh
      · intro c0 hc0 rd hrd
        rcases List.mem_cons.mp hc0 with hh | hh
        · subst hh
          obtain ⟨v, hv, hbad⟩ := hcov1 rd hrd
          refine ⟨v, hv, ?_⟩
          rcases hbad with hn | ⟨k, hk, hkin⟩
          · exact Or.inl hn
          · refine Or.inr ⟨k, hk, ?_⟩
            rw [hdf2]
            simp only [List.map_append, List.mem_append]
            exact Or.inl hkin
        · exact hcov2 c0 hh rd hrd

theorem processChunks_noop {u : String} {dm : Str → Str × Str}
    {ig : List String} {dc : Option (List String)} :
    ∀ (chunks : List (List RecDict)) (f : DBFile) (cs : Counters),
    (∀ c ∈ chunks, c ≠ []) →
    (∀ c ∈ chunks, ∃ b, recordBatchToInsertData c u dm ig dc = .ok b) →
    (∀ c ∈ chunks, ∀ rd ∈ c, ∃ v, dictGet rd u = some v ∧
      (keyOfUid v = none ∨
        ∃ k, keyOfUid v = some k ∧ k ∈ f.df.map Prod.fst)) →
    processChunks u dm ig dc f cs chunks = .ok (f, cs) := by
  intro chunks
  induction chunks with
  | nil => intro f cs _ _ _; rfl
  | cons c rest ih =>
    intro f cs hne hb hcov
    unfold processChunks
    rw [processChunk_noop (hne c (List.mem_cons_self _ _))
      (hb c (List.mem_cons_self _ _))
      (hcov c (List.mem_cons_self _ _))]
    exact ih f cs (fun c0 h0 => hne c0 (List.mem_cons_of_mem _ h0))
      (fun c0 h0 => hb c0 (List.mem_cons_of_mem _ h0))
      (fun c0 h0 => hcov c0 (List.mem_cons_of_mem _ h0))

theorem flushCol_empty (tbls : List (String × List (Str × ℕ × Option ℚ)))
    (col : String) : flushCol tbls col [] = tbls := by
  unfold flushCol
  simp

theorem flushCounters_init
    (tbls : List (String × List (Str × ℕ × Option ℚ)))
    (cols : List String) :
    flushCounters tbls (countersInit cols) = tbls := by
  unfold flushCounters countersInit
  induction cols with
  | nil => rfl
  | cons c rest ih =>
    simp only [List.map_cons, List.foldl_cons, flushCol_empty]
    exact ih

theorem writeListDicts_ok_facts {s : DBSession} {R : List RecDict}
    {uc : String} {order : List (List RecDict)} {dm : Str → Str × Str}
    {s1 : DBSession}
    (h : writeListDicts s R uc order true dm = .ok s1) :
    ∃ exCols,
    computeExampleCols s R (s.uniqueIdCol.getD uc) = .ok exCols ∧
    s1.uniqueIdCol = some (s.uniqueIdCol.getD uc) ∧
    s1.exampleCols = some exCols ∧
    s1.columnCounters = none ∧
    s1.colsToIgnore = s.colsToIgnore ∧ s1.dmetaCols = s.dmetaCols ∧
    s1.file.kvSync = "true" ∧
    (∀ c ∈ order, ∃ b, recordBatchToInsertData c (s.uniqueIdCol.getD uc)
      dm s.colsToIgnore s.dmetaCols = .ok b) ∧
    (∀ c ∈ order, ∀ rd ∈ c, ∃ v,
      dictGet rd (s.uniqueIdCol.getD uc) = some v ∧
      (keyOfUid v = none ∨
        ∃ k, keyOfUid v = some k ∧ k ∈ s1.file.df.map Prod.fst)) := by
  unfold writeListDicts at h
  dsimp only at h
  cases he : computeExampleCols s R (s.uniqueIdCol.getD uc) with
  | error e =>
    rw [he] at h
    exact Except.noConfusion h
  | ok exCols =>
    rw [he] at h
    simp only at h
    cases hp : processChunks (s.uniqueIdCol.getD uc) dm s.colsToIgnore
        s.dmetaCols
        { s.file with
            tokenTables := if s.exampleCols = none then
                s.file.tokenTables ++ exCols.map (fun c => (c, [])) else
                s.file.tokenTables,
            kvUniqueIdCol := if s.uniqueIdCol = none then
                some (s.uniqueIdCol.getD uc) else s.file.kvUniqueIdCol }
        (s.columnCounters.getD (countersInit exCols)) order with
    | error e =>
      rw [hp] at h
      exact Except.noConfusion h
    | ok r =>
      obtain ⟨f1, cs1⟩ := r
      rw [hp] at h
      simp only [if_pos rfl] at h
      cases h
      obtain ⟨⟨ext, hdf⟩, _, _, _, _, _, _, hb, hcov⟩ :=
        processChunks_ok_facts order _ _ f1 cs1 hp
      exact ⟨exCols, rfl, rfl, rfl, rfl, rfl, rfl, rfl, hb, hcov⟩

theorem writeListDicts_noop {s1 : DBSession} {R : List RecDict}
    {uc : String} {o2 : List (List RecDict)} {dm : Str → Str × Str}
    {u : String} {exCols : List String}
    (hu : s1.uniqueIdCol = some u)
    (hex : s1.exampleCols = some exCols)
    (hcc : s1.columnCounters = none)
    (hsync : s1.file.kvSync = "true")
    (hne : ∀ c ∈ o2, c ≠ [])
    (hb : ∀ c ∈ o2, ∃ b, recordBatchToInsertData c u dm s1.colsToIgnore
      s1.dmetaCols = .ok b)
    (hcov : ∀ c ∈ o2, ∀ rd ∈ c, ∃ v, dictGet rd u = some v ∧
      (keyOfUid v = none ∨
        ∃ k, keyOfUid v = some k ∧ k ∈ s1.file.df.map Prod.fst)) :
    ∃ s2, writeListDicts s1 R uc o2 true dm = .ok s2 ∧
      s2.file.df = s1.file.df ∧ s2.file.fts = s1.file.fts ∧
      s2.file.tokenTables = s1.file.tokenTables ∧
      s2.file.kvSync = "true" ∧
      s2.uniqueIdCol = some u ∧ s2.exampleCols = some exCols ∧
      s2.columnCounters = none ∧
      s2.colsToIgnore = s1.colsToIgnore ∧ s2.dmetaCols = s1.dmetaCols := by
  have hnoop := processChunks_noop o2 s1.file (countersInit exCols)
    hne hb hcov
  obtain ⟨⟨hd, df, fts, tt, kvu, kvi, kvd, ks⟩, ci, dc0, uid0, ex0, cc0⟩ :=
    s1
  dsimp only at hu hex hcc hsync hnoop ⊢
  subst hu hex hcc hsync
  refine ⟨⟨⟨hd, df, fts, tt, kvu, kvi, kvd, "true"⟩, ci, dc0,
    some u, some exCols, none⟩, ?_, rfl, rfl, rfl, rfl, rfl, rfl, rfl,
    rfl, rfl⟩
  unfold writeListDicts computeExampleCols
  dsimp only [Option.getD]
  simp [hnoop, flushCounters_init]
/-- C3: ingesting a list of records a second time (same unique ids) is
a no-op on the persisted data: the second `write_list_dicts_parallel`
(over any arrival order of its chunks, and any arrival order in the
first ingest) succeeds and leaves the records table (`df`), the FTS
table and every column's token-count table exactly as after the first
ingest — each duplicate chunk's bulk insert hits the integrity error,
the one-by-one fallback skips every record, and flushing the untouched
counters changes nothing. -/
theorem C3_reingest_is_noop {s0 s1 : DBSession} {R : List RecDict}
    {uc : String} {bs : ℕ} {o1 o2 : List (List RecDict)}
    {dm : Str → Str × Str}
    (hbs : 1 ≤ bs)
    (ho1 : o1.Perm (chunkList R bs))
    (ho2 : o2.Perm (chunkList R bs))
    (h1 : writeListDicts s0 R uc o1 true dm = .ok s1) :
    ∃ s2, writeListDicts s1 R uc o2 true dm = .ok s2 ∧
      s2.file.df = s1.file.df ∧
      s2.file.fts = s1.file.fts ∧
      s2.file.tokenTables = s1.file.tokenTables := by
  obtain ⟨exCols, hex0, hu1, hex1, hcc1, hci1, hdc1, hsync1, hb1, hcov1⟩ :=
    writeListDicts_ok_facts h1
  have hmem : ∀ c ∈ o2, c ∈ o1 := fun c hc =>
    ho1.mem_iff.mpr (ho2.mem_iff.mp hc)
  have hne : ∀ c ∈ o2, c ≠ [] := fun c hc =>
    chunkList_mem_ne_nil hbs (ho2.mem_iff.mp hc)
  have hb : ∀ c ∈ o2, ∃ b, recordBatchToInsertData c
      (s0.uniqueIdCol.getD uc) dm s1.colsToIgnore s1.dmetaCols =
      .ok b := by
    intro c hc
    rw [hci1, hdc1]
    exact hb1 c (hmem c hc)
  have hcov : ∀ c ∈ o2, ∀ rd ∈ c, ∃ v,
      dictGet rd (s0.uniqueIdCol.getD uc) = some v ∧
      (keyOfUid v = none ∨
        ∃ k, keyOfUid v = some k ∧ k ∈ s1.file.df.map Prod.fst) :=
    fun c hc => hcov1 c (hmem c hc)
  obtain ⟨s2, hw, hdf, hfts, htt, _⟩ :=
    writeListDicts_noop hu1 hex1 hcc1 hsync1 hne hb hcov
  exact ⟨s2, hw, hdf, hfts, htt⟩

/-- C3 applied at a concrete input: a fresh store ingests one record
(`uid = "1"`, `name = "bob"`); re-ingesting succeeds and leaves the
tables unchanged. -/
theorem C3_reingest_is_noop_witness :
    1 ≤ 1 ∧
    (chunkList [[("uid", PyValue.pystr ['1']),
      ("name", PyValue.pystr ['b', 'o', 'b'])]] 1).Perm
      (chunkList [[("uid", PyValue.pystr ['1']),
        ("name", PyValue.pystr ['b', 'o', 'b'])]] 1) ∧
    writeListDicts
      ⟨⟨true, [], [], [], none, [], none, "true"⟩, [], none, none,
        none, none⟩
      [[("uid", PyValue.pystr ['1']),
        ("name", PyValue.pystr ['b', 'o', 'b'])]]
      "uid"
      (chunkList [[("uid", PyValue.pystr ['1']),
        ("name", PyValue.pystr ['b', 'o', 'b'])]] 1)
      true (fun _ => ([], [])) =
      .ok ⟨⟨true,
        [("1", [("uid", PyValue.pystr ['1']),
          ("name", PyValue.pystr ['b', 'o', 'b'])], ['B', 'O', 'B'])],
        [("1", ['B', 'O', 'B'])],
        [("name", [(['B', 'O', 'B'], 1, none)])],
        some "uid", [], none, "true"⟩, [], none, some "uid",
        some ["name"], none⟩ ∧
    ∃ s2, writeListDicts
      ⟨⟨true,
        [("1", [("uid", PyValue.pystr ['1']),
          ("name", PyValue.pystr ['b', 'o', 'b'])], ['B', 'O', 'B'])],
        [("1", ['B', 'O', 'B'])],
        [("name", [(['B', 'O', 'B'], 1, none)])],
        some "uid", [], none, "true"⟩, [], none, some "uid",
        some ["name"], none⟩
      [[("uid", PyValue.pystr ['1']),
        ("name", PyValue.pystr ['b', 'o', 'b'])]]
      "uid"
      (chunkList [[("uid", PyValue.pystr ['1']),
        ("name", PyValue.pystr ['b', 'o', 'b'])]] 1)
      true (fun _ => ([], [])) = .ok s2 ∧
      s2.file.df =
        [("1", [("uid", PyValue.pystr ['1']),
          ("name", PyValue.pystr ['b', 'o', 'b'])], ['B', 'O', 'B'])] ∧
      s2.file.fts = [("1", ['B', 'O', 'B'])] ∧
      s2.file.tokenTables = [("name", [(['B', 'O', 'B'], 1, none)])] := by
  have h1 : writeListDicts
      ⟨⟨true, [], [], [], none, [], none, "true"⟩, [], none, none,
        none, none⟩
      [[("uid", PyValue.pystr ['1']),
        ("name", PyValue.pystr ['b', 'o', 'b'])]]
      "uid"
      (chunkList [[("uid", PyValue.pystr ['1']),
        ("name", PyValue.pystr ['b', 'o', 'b'])]] 1)
      true (fun _ => ([], [])) =
      .ok ⟨⟨true,
        [("1", [("uid", PyValue.pystr ['1']),
          ("name", PyValue.pystr ['b', 'o', 'b'])], ['B', 'O', 'B'])],
        [("1", ['B', 'O', 'B'])],
        [("name", [(['B', 'O', 'B'], 1, none)])],
        some "uid", [], none, "true"⟩, [], none, some "uid",
        some ["name"], none⟩ := rfl
  exact ⟨Nat.le_refl 1, List.Perm.refl _, h1,
    C3_reingest_is_noop (Nat.le_refl 1) (List.Perm.refl _)
      (List.Perm.refl _) h1⟩

/-! ## The `MatchFinder` (finder.py)

The finder's record view is parameterised: `fts` stands for the FTS5
query (`SELECT unique_id, bm25 ... MATCH ... LIMIT`, the `LIMIT` applied
as `take`), `scoreOf` for `RecordComparisonScorer(...).score` on the
record fetched by id, and `tkns` for
`record.tokens_in_order_of_rarity`. -/

/-- `MatchFinder`'s mutable search state: `found_records` (id, score,
bm25 score), `best_score` (`none` is the initial `-inf`), the
`_searches` set of already-issued token sets, and
`number_of_searches`. -/
structure FinderState where
  found : List (String × ℚ × ℚ)
  bestScore : Option ℚ
  searches : List (Finset String)
  numSearches : ℕ
deriving DecidableEq

/-- `add_record_if_not_exists` (finder.py lines 68-82): an id already
in `found_records` is left alone; a new id is fetched, scored and
admitted, and `best_score` is raised to the score if larger. -/
def addRecord (scoreOf : String → ℚ) (st : FinderState)
    (r : String × ℚ) : FinderState :=
  if (st.found.map (fun e => e.1)).contains r.1 then st
  else { st with
         found := st.found ++ [(r.1, scoreOf r.1, r.2)],
         bestScore := some (match st.bestScore with
           | none => scoreOf r.1
           | some b => max (scoreOf r.1) b) }

/-- `self.best_score > self.best_score_threshold` with
`best_score ∈ ℚ ∪ {-inf}` (`none`) and
`threshold ∈ ℚ ∪ {+inf}` (`none`). -/
def bestExceeds (bestScore threshold : Option ℚ) : Bool :=
  match bestScore, threshold with
  | some b, some t => decide (t < b)
  | _, _ => false

/-- `stop_searching` (finder.py lines 141-149): stop when the best
score exceeds the threshold, when strictly more than
`return_records_limit` records have been admitted, or when the last
query (if any) returned exactly `return_records_limit` rows. -/
def stopSearching (limit : ℕ) (threshold : Option ℚ)
    (st : FinderState) (results : Option (ℕ × ℕ)) : Bool :=
  bestExceeds st.bestScore threshold ||
    decide (limit < st.found.length) ||
    (match results with
     | some r => r.2 == limit
     | none => false)

/-- `_fts_using_tokens` (finder.py lines 99-139): skip entirely when
this token set was already searched; otherwise record the search, run
the limited query, and ingest the rows only when strictly fewer than
`return_records_limit` came back.  Returns the state with the
`{num_new_recs_found, num_results}` dict (`none` is Python's
`return None` on the dedup path). -/
def ftsUsingTokens (fts : List String → List (String × ℚ))
    (scoreOf : String → ℚ) (limit : ℕ) (st : FinderState)
    (tokens : List String) : FinderState × Option (ℕ × ℕ) :=
  if tokens.toFinset ∈ st.searches then (st, none)
  else
    let st1 := { st with
                 searches := st.searches ++ [tokens.toFinset],
                 numSearches := st.numSearches + 1 }
    let results := (fts tokens).take limit
    let st2 := if results.length < limit then
        results.foldl (addRecord scoreOf) st1 else st1
    (st2, some (st2.found.length - st1.found.length, results.length))

/-- A strategy's query loop: issue each query in turn and break as
soon as `stop_searching(results)` holds (finder.py lines 172-176 and,
after flattening the band double loop whose inner and outer `break`
test the same `results` value, lines 204-217). -/
def runQueries (fts : List String → List (String × ℚ))
    (scoreOf : String → ℚ) (limit : ℕ) (threshold : Option ℚ) :
    FinderState → List (List String) → FinderState
  | st, [] => st
  | st, q :: rest =>
    match ftsUsingTokens fts scoreOf limit st q with
    | (st1, results) =>
      if stopSearching limit threshold st1 results then st1
      else runQueries fts scoreOf limit threshold st1 rest

/-- `_search_random`'s loop (finder.py lines 233-238): like
`runQueries` but the break tests `stop_searching(None)`. -/
def runQueriesNone (fts : List String → List (String × ℚ))
    (scoreOf : String → ℚ) (limit : ℕ) (threshold : Option ℚ) :
    FinderState → List (List String) → FinderState
  | st, [] => st
  | st, q :: rest =>
    match ftsUsingTokens fts scoreOf limit st q with
    | (st1, _) =>
      if stopSearching limit threshold st1 none then st1
      else runQueriesNone fts scoreOf limit threshold st1 rest

/-- `_search_specific_to_general_all_tokens` (finder.py lines
157-180): the suffixes of the rarity-ordered token list. -/
def searchSpecificToGeneralAllTokens
    (fts : List String → List (String × ℚ)) (scoreOf : String → ℚ)
    (limit : ℕ) (threshold : Option ℚ) (tkns : List String)
    (st : FinderState) : FinderState :=
  runQueries fts scoreOf limit threshold st
    ((List.range tkns.length).map (fun i => tkns.drop i))

/-- The band order of `_search_specific_to_general_band` (finder.py
lines 204-209): `band_size` from `n` down to `1`, each window left to
right. -/
def bandQueries (tkns : List String) : List (List String) :=
  (List.range tkns.length).flatMap (fun j =>
    (List.range (j + 1)).map (fun s =>
      (tkns.drop s).take (tkns.length - j)))

/-- `_search_specific_to_general_band` (finder.py lines 182-221). -/
def searchSpecificToGeneralBand
    (fts : List String → List (String × ℚ)) (scoreOf : String → ℚ)
    (limit : ℕ) (threshold : Option ℚ) (tkns : List String)
    (st : FinderState) : FinderState :=
  runQueries fts scoreOf limit threshold st (bandQueries tkns)

/-- `_search_random` (finder.py lines 223-242): only with more than
two tokens; the sampled token tuples are the oracle `choices`. -/
def searchRandom (fts : List String → List (String × ℚ))
    (scoreOf : String → ℚ) (limit : ℕ) (threshold : Option ℚ)
    (tkns : List String) (choices : ℕ → List String) (intensity : ℕ)
    (st : FinderState) : FinderState :=
  if 2 < tkns.length then
    runQueriesNone fts scoreOf limit threshold st
      ((List.range intensity).map choices)
  else st

/-- The fresh `MatchFinder.__init__` state (finder.py lines 29-38). -/
def initFinderState : FinderState := ⟨[], none, [], 0⟩

/-- `find_potential_matches` (finder.py lines 52-66): the three
strategies in order, each preceded by a `stop_searching(None)` check
that ends the whole search. -/
def findPotentialMatches (fts : List String → List (String × ℚ))
    (scoreOf : String → ℚ) (limit : ℕ) (threshold : Option ℚ)
    (tkns : List String) (choices : ℕ → List String)
    (intensity : ℕ) : FinderState :=
  let st0 := initFinderState
  if stopSearching limit threshold st0 none then st0 else
  let st1 := searchSpecificToGeneralAllTokens fts scoreOf limit
    threshold tkns st0
  if stopSearching limit threshold st1 none then st1 else
  let st2 := searchSpecificToGeneralBand fts scoreOf limit threshold
    tkns st1
  if stopSearching limit threshold st2 none then st2 else
  searchRandom fts scoreOf limit threshold tkns choices intensity st2

theorem addRecord_length (scoreOf : String → ℚ) (st : FinderState)
    (r : String × ℚ) :
    (addRecord scoreOf st r).found.length ≤ st.found.length + 1 := by
  unfold addRecord
  by_cases h : (st.found.map (fun e => e.1)).contains r.1
  · rw [if_pos h]
    omega
  · rw [if_neg h]
    simp

theorem foldl_addRecord_length (scoreOf : String → ℚ) :
    ∀ (rs : List (String × ℚ)) (st : FinderState),
    (rs.foldl (addRecord scoreOf) st).found.length ≤
      st.found.length + rs.length := by
  intro rs
  induction rs with
  | nil =>
    intro st
    simp
  | cons r rest ih =>
    intro st
    simp only [List.foldl_cons, List.length_cons]
    have h1 := addRecord_length scoreOf st r
    have h2 := ih (addRecord scoreOf st r)
    omega

theorem fts_found_length (fts : List String → List (String × ℚ))
    (scoreOf : String → ℚ) (limit : ℕ) (st : FinderState)
    (tokens : List String) :
    (ftsUsingTokens fts scoreOf limit st tokens).1.found.length ≤
      st.found.length + (limit - 1) := by
  unfold ftsUsingTokens
  by_cases h : tokens.toFinset ∈ st.searches
  · rw [if_pos h]
    simp
  · rw [if_neg h]
    dsimp only
    by_cases h2 : ((fts tokens).take limit).length < limit
    · rw [if_pos h2]
      have hfold := foldl_addRecord_length scoreOf
        ((fts tokens).take limit)
        { st with
          searches := st.searches ++ [tokens.toFinset],
          numSearches := st.numSearches + 1 }
      simp only at hfold
      omega
    · rw [if_neg h2]
      simp

theorem notStop_found_le {limit : ℕ} {threshold : Option ℚ}
    {st : FinderState} {results : Option (ℕ × ℕ)}
    (h : stopSearching limit threshold st results = false) :
    st.found.length ≤ limit := by
  unfold stopSearching at h
  simp only [Bool.or_eq_false_iff] at h
  exact Nat.le_of_not_lt (of_decide_eq_false h.1.2)

theorem runQueries_found_le (fts : List String → List (String × ℚ))
    (scoreOf : String → ℚ) (limit : ℕ) (threshold : Option ℚ) :
    ∀ (qs : List (List String)) (st : FinderState),
    st.found.length ≤ limit →
    (runQueries fts scoreOf limit threshold st qs).found.length ≤
      limit + (limit - 1) := by
  intro qs
  induction qs with
  | nil =>
    intro st h
    unfold runQueries
    omega
  | cons q rest ih =>
    intro st h
    unfold runQueries
    cases hf : ftsUsingTokens fts scoreOf limit st q with
    | mk st1 results =>
      dsimp only
      have hlen : st1.found.length ≤ st.found.length + (limit - 1) := by
        have hx := fts_found_length fts scoreOf limit st q
        rw [hf] at hx
        exact hx
      by_cases hs : stopSearching limit threshold st1 results = true
      · rw [if_pos hs]
        omega
      · rw [if_neg hs]
        exact ih st1 (notStop_found_le (Bool.eq_false_iff.mpr hs))

theorem runQueriesNone_found_le (fts : List String → List (String × ℚ))
    (scoreOf : String → ℚ) (limit : ℕ) (threshold : Option ℚ) :
    ∀ (qs : List (List String)) (st : FinderState),
    st.found.length ≤ limit →
    (runQueriesNone fts scoreOf limit threshold st qs).found.length ≤
      limit + (limit - 1) := by
  intro qs
  induction qs with
  | nil =>
    intro st h
    unfold runQueriesNone
    omega
  | cons q rest ih =>
    intro st h
    unfold runQueriesNone
    cases hf : ftsUsingTokens fts scoreOf limit st q with
    | mk st1 results =>
      dsimp only
      have hlen : st1.found.length ≤ st.found.length + (limit - 1) := by
        have hx := fts_found_length fts scoreOf limit st q
        rw [hf] at hx
        exact hx
      by_cases hs : stopSearching limit threshold st1 none = true
      · rw [if_pos hs]
        omega
      · rw [if_neg hs]
        exact ih st1 (notStop_found_le (Bool.eq_false_iff.mpr hs))

theorem findPotentialMatches_found_le
    (fts : List String → List (String × ℚ)) (scoreOf : String → ℚ)
    (limit : ℕ) (threshold : Option ℚ) (tkns : List String)
    (choices : ℕ → List String) (intensity : ℕ) :
    (findPotentialMatches fts scoreOf limit threshold tkns choices
      intensity).found.length ≤ limit + (limit - 1) := by
  unfold findPotentialMatches
  dsimp only
  by_cases h0 : stopSearching limit threshold initFinderState none = true
  · rw [if_pos h0]
    exact Nat.zero_le _
  · rw [if_neg h0]
    have hb0 : initFinderState.found.length ≤ limit := Nat.zero_le _
    have h1 : (searchSpecificToGeneralAllTokens fts scoreOf limit
        threshold tkns initFinderState).found.length ≤
        limit + (limit - 1) :=
      runQueries_found_le fts scoreOf limit threshold _ _ hb0
    by_cases hs1 : stopSearching limit threshold
        (searchSpecificToGeneralAllTokens fts scoreOf limit threshold
          tkns initFinderState) none = true
    · rw [if_pos hs1]
      exact h1
    · rw [if_neg hs1]
      have hA : (searchSpecificToGeneralAllTokens fts scoreOf limit
          threshold tkns initFinderState).found.length ≤ limit :=
        notStop_found_le (Bool.eq_false_iff.mpr hs1)
      have h2 : (searchSpecificToGeneralBand fts scoreOf limit
          threshold tkns (searchSpecificToGeneralAllTokens fts scoreOf
            limit threshold tkns initFinderState)).found.length ≤
          limit + (limit - 1) :=
        runQueries_found_le fts scoreOf limit threshold _ _ hA
      by_cases hs2 : stopSearching limit threshold
          (searchSpecificToGeneralBand fts scoreOf limit threshold tkns
            (searchSpecificToGeneralAllTokens fts scoreOf limit
              threshold tkns initFinderState)) none = true
      · rw [if_pos hs2]
        exact h2
      · rw [if_neg hs2]
        have hB : (searchSpecificToGeneralBand fts scoreOf limit
            threshold tkns (searchSpecificToGeneralAllTokens fts scoreOf
              limit threshold tkns initFinderState)).found.length ≤
            limit :=
          notStop_found_le (Bool.eq_false_iff.mpr hs2)
        unfold searchRandom
        by_cases ht : 2 < tkns.length
        · rw [if_pos ht]
          exact runQueriesNone_found_le fts scoreOf limit threshold _ _
            hB
        · rw [if_neg ht]
          omega

/-- C6: evaluating the code at the failing input.  With
`return_records_limit = 3` and `best_score_threshold = +inf`, a search
whose first two FTS queries each return two fresh ids admits four
records: the stop check runs only between queries (`> limit`, not
`≥`), so a query may be issued while `found` holds up to `limit`
records and add up to `limit - 1` more. -/
theorem C6_return_limit_counterexample :
    (findPotentialMatches
      (fun ts => if ts = ["A", "B"] then [("1", (0 : ℚ)), ("2", 0)]
        else if ts = ["B"] then [("3", 0), ("4", 0)] else [])
      (fun _ => (0 : ℚ)) 3 none ["A", "B"] (fun _ => []) 0
      ).found.length = 4 ∧ 3 < 4 :=
  ⟨rfl, by omega⟩

/-- C6 (amended): with `best_score_threshold = +inf` the finder
returns at most `2 * return_records_limit - 1` records — not at most
`return_records_limit`.  Every admission happens inside a query that
returned fewer than `limit` rows and was issued while at most `limit`
records were admitted (any more stops every loop), so the final count
is at most `limit + (limit - 1)`. -/
theorem C6_return_limit_amended
    (fts : List String → List (String × ℚ)) (scoreOf : String → ℚ)
    (limit : ℕ) (tkns : List String) (choices : ℕ → List String)
    (intensity : ℕ) (hl : 1 ≤ limit) :
    (findPotentialMatches fts scoreOf limit none tkns choices
      intensity).found.length ≤ 2 * limit - 1 := by
  have h := findPotentialMatches_found_le fts scoreOf limit none tkns
    choices intensity
  omega

/-- C6 amended applied at the counterexample input: four records
found, and indeed `4 ≤ 2 * 3 - 1`. -/
theorem C6_return_limit_amended_witness :
    1 ≤ 3 ∧
    (findPotentialMatches
      (fun ts => if ts = ["A", "B"] then [("1", (0 : ℚ)), ("2", 0)]
        else if ts = ["B"] then [("3", 0), ("4", 0)] else [])
      (fun _ => (0 : ℚ)) 3 none ["A", "B"] (fun _ => []) 0
      ).found.length ≤ 2 * 3 - 1 :=
  ⟨by omega, C6_return_limit_amended
    (fun ts => if ts = ["A", "B"] then [("1", (0 : ℚ)), ("2", 0)]
      else if ts = ["B"] then [("3", 0), ("4", 0)] else [])
    (fun _ => (0 : ℚ)) 3 ["A", "B"] (fun _ => []) 0 (by omega)⟩

theorem addRecord_key_mem (scoreOf : String → ℚ) (st : FinderState)
    (r : String × ℚ) :
    r.1 ∈ (addRecord scoreOf st r).found.map (fun e => e.1) := by
  unfold addRecord
  by_cases h : (st.found.map (fun e => e.1)).contains r.1
  · rw [if_pos h]
    simpa using h
  · rw [if_neg h]
    simp

theorem addFold_found (scoreOf : String → ℚ) :
    ∀ (rs : List (String × ℚ)) (st : FinderState),
    ∃ ext, (rs.foldl (addRecord scoreOf) st).found = st.found ++ ext ∧
      ∀ e ∈ ext, e.2.1 = scoreOf e.1 := by
  intro rs
  induction rs with
  | nil =>
    intro st
    exact ⟨[], by simp, by simp⟩
  | cons r rest ih =>
    intro st
    obtain ⟨ext, hext, hsc⟩ := ih (addRecord scoreOf st r)
    simp only [List.foldl_cons]
    unfold addRecord at hext ⊢
    by_cases h : (st.found.map (fun e => e.1)).contains r.1
    · rw [if_pos h] at hext ⊢
      exact ⟨ext, hext, hsc⟩
    · rw [if_neg h] at hext ⊢
      refine ⟨(r.1, scoreOf r.1, r.2) :: ext, ?_, ?_⟩
      · rw [hext]
        simp
      · intro e he
        rcases List.mem_cons.mp he with hh | hh
        · rw [hh]
        · exact hsc e hh

theorem addFold_mem (scoreOf : String → ℚ) :
    ∀ (rs : List (String × ℚ)) (st : FinderState), ∀ r ∈ rs,
    r.1 ∈ (rs.foldl (addRecord scoreOf) st).found.map
      (fun e => e.1) := by
  intro rs
  induction rs with
  | nil =>
    intro st r hr
    cases hr
  | cons r0 rest ih =>
    intro st r hr
    simp only [List.foldl_cons]
    rcases List.mem_cons.mp hr with hh | hh
    · subst hh
      obtain ⟨ext, hext, _⟩ := addFold_found scoreOf rest
        (addRecord scoreOf st r)
      rw [hext]
      have := addRecord_key_mem scoreOf st r
      simp only [List.map_append, List.mem_append]
      exact Or.inl this
    · exact ih (addRecord scoreOf st r0) r hh

/-- C7: the behaviour of one `_fts_using_tokens` call.  (1) A token
set already in `_searches` is skipped entirely: the state (records,
best score, search count) is returned unchanged and no query runs.
(2) A fresh query whose row count equals `return_records_limit` has
all its rows discarded: `found_records` is unchanged (though the
search still counts).  (3) A fresh query returning fewer rows has
every returned id present in `found_records` afterwards, and every
returned id that was not already admitted is admitted with the
scorer's score for that id. -/
theorem C7_fts_dedup_saturation_admission
    (fts : List String → List (String × ℚ)) (scoreOf : String → ℚ)
    (limit : ℕ) (st : FinderState) (tokens : List String) :
    (tokens.toFinset ∈ st.searches →
      ftsUsingTokens fts scoreOf limit st tokens = (st, none)) ∧
    (tokens.toFinset ∉ st.searches →
      ((fts tokens).take limit).length = limit →
      (ftsUsingTokens fts scoreOf limit st tokens).1.found =
        st.found) ∧
    (tokens.toFinset ∉ st.searches →
      ((fts tokens).take limit).length < limit →
      ∀ r ∈ (fts tokens).take limit,
        r.1 ∈ (ftsUsingTokens fts scoreOf limit st
          tokens).1.found.map (fun e => e.1) ∧
        ((st.found.map (fun e => e.1)).contains r.1 = false →
          ∃ e ∈ (ftsUsingTokens fts scoreOf limit st tokens).1.found,
            e.1 = r.1 ∧ e.2.1 = scoreOf r.1)) := by
  refine ⟨?_, ?_, ?_⟩
  · intro h
    unfold ftsUsingTokens
    rw [if_pos h]
  · intro h hlen
    unfold ftsUsingTokens
    rw [if_neg h]
    dsimp only
    rw [if_neg (by omega)]
  · intro h hlen
    intro r hr
    unfold ftsUsingTokens
    rw [if_neg h]
    dsimp only
    rw [if_pos hlen]
    constructor
    · exact addFold_mem scoreOf _ _ r hr
    · intro hnc
      have hmem := addFold_mem scoreOf ((fts tokens).take limit)
        { st with
          searches := st.searches ++ [tokens.toFinset],
          numSearches := st.numSearches + 1 } r hr
      obtain ⟨ext, hext, hsc⟩ := addFold_found scoreOf
        ((fts tokens).take limit)
        { st with
          searches := st.searches ++ [tokens.toFinset],
          numSearches := st.numSearches + 1 }
      obtain ⟨e, he, hkey⟩ := List.mem_map.mp hmem
      refine ⟨e, he, hkey, ?_⟩
      rw [hext] at he
      rcases List.mem_append.mp he with hh | hh
      · exfalso
        have hin : r.1 ∈ st.found.map (fun e => e.1) :=
          List.mem_map.mpr ⟨e, hh, hkey⟩
        simp only [List.contains_eq_any_beq, List.any_eq_false] at hnc
        have hcontra := hnc r.1 hin
        simp at hcontra
      · rw [← hkey]
        exact hsc e hh

/-- C7 applied at concrete inputs: a repeated token set is skipped
with the state unchanged; a query returning exactly the limit has its
row discarded; a query returning fewer rows admits the new id with
its score. -/
theorem C7_fts_dedup_saturation_admission_witness :
    (ftsUsingTokens
      (fun ts => if ts = ["B"] then [("x", (0 : ℚ))]
        else if ts = ["C"] then [("y", 0)] else [])
      (fun _ => (5 : ℚ)) 2 ⟨[], none, [["A"].toFinset], 0⟩ ["A"] =
      (⟨[], none, [["A"].toFinset], 0⟩, none)) ∧
    ((ftsUsingTokens
      (fun ts => if ts = ["B"] then [("x", (0 : ℚ))]
        else if ts = ["C"] then [("y", 0)] else [])
      (fun _ => (5 : ℚ)) 1 ⟨[], none, [], 0⟩ ["B"]).1.found = []) ∧
    ("y" ∈ (ftsUsingTokens
      (fun ts => if ts = ["B"] then [("x", (0 : ℚ))]
        else if ts = ["C"] then [("y", 0)] else [])
      (fun _ => (5 : ℚ)) 2 ⟨[], none, [], 0⟩ ["C"]).1.found.map
        (fun e => e.1) ∧
      ∃ e ∈ (ftsUsingTokens
        (fun ts => if ts = ["B"] then [("x", (0 : ℚ))]
          else if ts = ["C"] then [("y", 0)] else [])
        (fun _ => (5 : ℚ)) 2 ⟨[], none, [], 0⟩ ["C"]).1.found,
        e.1 = "y" ∧ e.2.1 = 5) := by
  refine ⟨?_, ?_, ?_⟩
  · exact (C7_fts_dedup_saturation_admission
      (fun ts => if ts = ["B"] then [("x", (0 : ℚ))]
        else if ts = ["C"] then [("y", 0)] else [])
      (fun _ => (5 : ℚ)) 2 ⟨[], none, [["A"].toFinset], 0⟩ ["A"]).1
      (by decide)
  · exact (C7_fts_dedup_saturation_admission
      (fun ts => if ts = ["B"] then [("x", (0 : ℚ))]
        else if ts = ["C"] then [("y", 0)] else [])
      (fun _ => (5 : ℚ)) 1 ⟨[], none, [], 0⟩ ["B"]).2.1
      (by decide) (by decide)
  · have hc := (C7_fts_dedup_saturation_admission
      (fun ts => if ts = ["B"] then [("x", (0 : ℚ))]
        else if ts = ["C"] then [("y", 0)] else [])
      (fun _ => (5 : ℚ)) 2 ⟨[], none, [], 0⟩ ["C"]).2.2
      (by decide) (by decide) ("y", 0) (by decide)
    exact ⟨hc.1, hc.2 (by decide)⟩

/-! ## C8: the tokeniser on its own joined output -/

theorem ws_not_word {c : Char} (h : isWS c = true) :
    isWordChar c = false := by
  simp only [isWS, Bool.or_eq_true, beq_iff_eq] at h
  rcases h with ((((h | h) | h) | h) | h) | h <;> subst h <;> decide

theorem ws_not_lower {c : Char} (h : isWS c = true) :
    ¬('a' ≤ c ∧ c ≤ 'z') := by
  simp only [isWS, Bool.or_eq_true, beq_iff_eq] at h
  rcases h with ((((h | h) | h) | h) | h) | h <;> subst h <;> decide

theorem ws_not_upper_digit {c : Char} (h : isWS c = true) :
    isUpperAZ c = false ∧ isDigit09 c = false := by
  simp only [isWS, Bool.or_eq_true, beq_iff_eq] at h
  rcases h with ((((h | h) | h) | h) | h) | h <;> subst h <;> decide

theorem word_not_ws {c : Char} (h : isWordChar c = true) :
    isWS c = false := by
  cases hws : isWS c with
  | false => rfl
  | true => rw [ws_not_word hws] at h; cases h

theorem map_pyToUpper_id {s : Str}
    (h : ∀ c ∈ s, ¬('a' ≤ c ∧ c ≤ 'z')) : s.map pyToUpper = s := by
  induction s with
  | nil => rfl
  | cons c cs ih =>
    simp only [List.map_cons]
    rw [show pyToUpper c = c from if_neg (h c (List.mem_cons_self _ _)),
      ih (fun d hd => h d (List.mem_cons_of_mem _ hd))]

theorem punctToSpace_id {s : Str}
    (h : ∀ c ∈ s, isWordChar c = true ∨ isWS c = true) :
    punctToSpace s = s := by
  unfold punctToSpace
  induction s with
  | nil => rfl
  | cons c cs ih =>
    simp only [List.map_cons]
    have hc := h c (List.mem_cons_self _ _)
    have : (!isWordChar c && !isWS c) = false := by
      rcases hc with hc | hc <;> simp [hc]
    rw [this]
    simp only [if_neg Bool.false_ne_true]
    rw [ih (fun d hd => h d (List.mem_cons_of_mem _ hd))]

theorem insertBetween_id (p : Char → Char → Bool) :
    ∀ (s : Str), List.Chain' (fun a b => p a b = false) s →
    insertBetween p s = s
  | [], _ => rfl
  | [c], _ => rfl
  | c1 :: c2 :: cs, h => by
    have h1 : p c1 c2 = false := (List.chain'_cons.mp h).1
    have h2 : List.Chain' (fun a b => p a b = false) (c2 :: cs) :=
      (List.chain'_cons.mp h).2
    unfold insertBetween
    rw [if_neg (by rw [h1]; exact Bool.false_ne_true)]
    rw [insertBetween_id p (c2 :: cs) h2]

theorem pyCollapse_words {r : Str} (h : ∀ c ∈ r, isWS c = false) :
    pyCollapse r = r := by
  induction r with
  | nil => rfl
  | cons c cs ih =>
    rw [pyCollapse_cons,
      if_neg (by rw [h c (List.mem_cons_self _ _)]; exact
        Bool.false_ne_true),
      ih (fun d hd => h d (List.mem_cons_of_mem _ hd))]

theorem pyCollapse_words_append {r : Str} (x : Str)
    (h : ∀ c ∈ r, isWS c = false) :
    pyCollapse (r ++ x) = r ++ pyCollapse x := by
  induction r with
  | nil => rfl
  | cons c cs ih =>
    simp only [List.cons_append]
    rw [pyCollapse_cons,
      if_neg (by rw [h c (List.mem_cons_self _ _)]; exact
        Bool.false_ne_true),
      ih (fun d hd => h d (List.mem_cons_of_mem _ hd))]

theorem collapseRun_single (c : Char) : collapseRun [c] = [c] := by
  rw [collapseRun_eq]
  rfl

theorem collapseRun_double (c d : Char) :
    collapseRun [c, d] = [' '] := by
  rw [collapseRun_eq, if_pos (by simp : 2 ≤ ([c, d] : Str).length)]
  rfl

theorem pyCollapse_id {s : Str}
    (h : List.Chain' (fun a b => ¬(isWS a = true ∧ isWS b = true)) s) :
    pyCollapse s = s := by
  induction s with
  | nil => rfl
  | cons c cs ih =>
    by_cases hws : isWS c = true
    · rw [pyCollapse_cons, if_pos hws]
      have htail : List.Chain'
          (fun a b => ¬(isWS a = true ∧ isWS b = true)) cs :=
        (List.chain'_cons'.mp h).2
      have htw : cs.takeWhile isWS = [] ∧ cs.dropWhile isWS = cs := by
        cases cs with
        | nil => exact ⟨rfl, rfl⟩
        | cons c2 cs2 =>
          have hpair := (List.chain'_cons.mp h).1
          have hc2 : isWS c2 = false := by
            cases h2 : isWS c2 with
            | false => rfl
            | true => exact absurd ⟨hws, h2⟩ hpair
          constructor
          · simp [List.takeWhile_cons, hc2]
          · simp [List.dropWhile_cons, hc2]
      simp only [List.takeWhile_cons, List.dropWhile_cons, hws, if_true,
        htw.1, htw.2]
      rw [collapseRun_single]
      simp only [List.singleton_append]
      rw [ih htail]
    · rw [pyCollapse_cons, if_neg hws, ih (List.chain'_cons'.mp h).2]

theorem dropWhile_cons_neg {p : Char → Bool} {c : Char} {cs : Str}
    (h : p c = false) : (c :: cs).dropWhile p = c :: cs := by
  simp [List.dropWhile_cons, h]

theorem pyStrip_id {s : Str}
    (hh : ∀ d ∈ s.head?, isWS d = false)
    (hl : ∀ d ∈ s.getLast?, isWS d = false) : pyStrip s = s := by
  unfold pyStrip
  cases s with
  | nil => rfl
  | cons c cs =>
    rw [dropWhile_cons_neg (hh c rfl)]
    have hrev : (c :: cs).reverse.dropWhile isWS = (c :: cs).reverse := by
      cases hr : (c :: cs).reverse with
      | nil => rfl
      | cons d ds =>
        have hd : (c :: cs).getLast? = some d := by
          rw [← List.head?_reverse, hr]
          rfl
        exact dropWhile_cons_neg (hl d hd)
    rw [hrev, List.reverse_reverse]

theorem pyStrip_append_space {s : Str} (hne : s ≠ [])
    (hh : ∀ d ∈ s.head?, isWS d = false)
    (hl : ∀ d ∈ s.getLast?, isWS d = false) :
    pyStrip (s ++ [' ']) = s := by
  unfold pyStrip
  have hdw : (s ++ [' ']).dropWhile isWS = s ++ [' '] := by
    cases s with
    | nil => exact absurd rfl hne
    | cons c cs =>
      simp only [List.cons_append]
      exact dropWhile_cons_neg (hh c rfl)
  rw [hdw, List.reverse_append]
  simp only [List.reverse_cons, List.reverse_nil, List.nil_append,
    List.singleton_append]
  rw [show (' ' :: s.reverse).dropWhile isWS = s.reverse.dropWhile isWS
    from by simp [List.dropWhile_cons, isWS]]
  have hrev : s.reverse.dropWhile isWS = s.reverse := by
    cases hr : s.reverse with
    | nil => rfl
    | cons d ds =>
      have hd : s.getLast? = some d := by
        rw [← List.head?_reverse, hr]
        rfl
      exact dropWhile_cons_neg (hl d hd)
  rw [hrev, List.reverse_reverse]

theorem splitOnSpace_ne_nil : ∀ (s : Str), splitOnSpace s ≠ []
  | [] => by simp [splitOnSpace]
  | c :: cs => by
    unfold splitOnSpace
    by_cases h : c = ' '
    · rw [if_pos h]
      simp
    · rw [if_neg h]
      cases hs : splitOnSpace cs <;> simp

theorem splitOnSpace_nospace : ∀ (t : Str), ' ' ∉ t →
    splitOnSpace t = [t]
  | [], _ => rfl
  | c :: cs, h => by
    unfold splitOnSpace
    rw [if_neg (by intro hc; exact h (hc ▸ List.mem_cons_self _ _))]
    rw [splitOnSpace_nospace cs (fun hc => h (List.mem_cons_of_mem _ hc))]

theorem splitOnSpace_append : ∀ (t rest : Str), ' ' ∉ t →
    splitOnSpace (t ++ ' ' :: rest) = t :: splitOnSpace rest
  | [], rest, _ => by
    simp only [List.nil_append]
    conv_lhs => unfold splitOnSpace
    rw [if_pos rfl]
  | c :: cs, rest, h => by
    simp only [List.cons_append]
    conv_lhs => unfold splitOnSpace
    rw [if_neg (by intro hc; exact h (hc ▸ List.mem_cons_self _ _))]
    rw [splitOnSpace_append cs rest
      (fun hc => h (List.mem_cons_of_mem _ hc))]

theorem joinSpace_split : ∀ (ts : List Str), ts ≠ [] →
    (∀ t ∈ ts, ' ' ∉ t) → splitOnSpace (joinSpace ts) = ts
  | [], h, _ => absurd rfl h
  | [t], _, h => by
    unfold joinSpace
    exact splitOnSpace_nospace t (h t (List.mem_cons_self _ _))
  | t :: t2 :: ts, _, h => by
    show splitOnSpace (t ++ ' ' :: joinSpace (t2 :: ts)) = _
    rw [splitOnSpace_append t _ (h t (List.mem_cons_self _ _)),
      joinSpace_split (t2 :: ts) (by simp)
        (fun u hu => h u (List.mem_cons_of_mem _ hu))]

/-- No adjacent pair of characters satisfies `p` (executable form of
the `Chain'` condition). -/
def adjOK (p : Char → Char → Bool) : Str → Bool
  | [] => true
  | [_] => true
  | a :: b :: t => !p a b && adjOK p (b :: t)

theorem adjOK_chain' (p : Char → Char → Bool) :
    ∀ (l : Str), adjOK p l = true →
    List.Chain' (fun a b => p a b = false) l
  | [], _ => List.chain'_nil
  | [_], _ => List.chain'_singleton _
  | a :: b :: t, h => by
    have h2 := h
    unfold adjOK at h2
    rw [Bool.and_eq_true] at h2
    rw [List.chain'_cons]
    exact ⟨by simpa using h2.1, adjOK_chain' p (b :: t) h2.2⟩

/-- A "clean" maximal word run as the tokeniser leaves it: nonempty,
at most eight word characters, none lowercase (the pipeline
uppercased them), and no uppercase-letter/digit adjacency in either
direction (the length gate would split it). -/
def goodRun (r : Str) : Prop :=
  r ≠ [] ∧
  (∀ c ∈ r, isWordChar c = true ∧ ¬('a' ≤ c ∧ c ≤ 'z')) ∧
  r.length ≤ 8 ∧
  adjOK (fun a b => (isUpperAZ a && isDigit09 b) ||
    (isDigit09 a && isUpperAZ b)) r = true

instance goodRun_decidable (r : Str) : Decidable (goodRun r) :=
  inferInstanceAs (Decidable (r ≠ [] ∧
    (∀ c ∈ r, isWordChar c = true ∧ ¬('a' ≤ c ∧ c ≤ 'z')) ∧
    r.length ≤ 8 ∧
    adjOK (fun a b => (isUpperAZ a && isDigit09 b) ||
      (isDigit09 a && isUpperAZ b)) r = true))

/-- The alternation structure of the joined token string: maximal
clean word runs separated by single whitespace characters, where a run
of exactly eight word characters is followed by a plain space (or ends
the string), and the string does not end in whitespace. -/
inductive Alt : Str → Prop
  | nil : Alt []
  | last (r : Str) : goodRun r → Alt r
  | seg (r : Str) (c : Char) (s : Str) : goodRun r →
      (r.length = 8 → c = ' ') → isWS c = true → s ≠ [] → Alt s →
      Alt (r ++ c :: s)

/-- The alternation structure of a single clean token: as `Alt`, but
the separators are non-space whitespace (tokens never contain `' '`)
and the interior runs are strictly shorter than eight characters. -/
inductive TokAlt : Str → Prop
  | last (r : Str) : goodRun r → TokAlt r
  | seg (r : Str) (c : Char) (s : Str) : goodRun r → r.length < 8 →
      isWS c = true → c ≠ ' ' → TokAlt s → TokAlt (r ++ c :: s)

theorem tokAlt_ne {t : Str} (h : TokAlt t) : t ≠ [] := by
  induction h with
  | last r hr => exact hr.1
  | seg r c s hr _ _ _ _ _ =>
    intro he
    exact hr.1 (List.append_eq_nil.mp he).1

theorem tokAlt_alt {t : Str} (h : TokAlt t) : Alt t := by
  induction h with
  | last r hr => exact Alt.last r hr
  | seg r c s hr h8 hc hcs hs ih =>
    exact Alt.seg r c s hr (fun he => absurd he (by omega)) hc
      (tokAlt_ne hs) ih

theorem alt_head {s : Str} (h : Alt s) (hne : s ≠ []) :
    ∃ d u, s = d :: u ∧ isWordChar d = true := by
  induction h with
  | nil => exact absurd rfl hne
  | last r hr =>
    match r, hr.1 with
    | d :: u, _ =>
      exact ⟨d, u, rfl, (hr.2.1 d (List.mem_cons_self _ _)).1⟩
  | seg r c s2 hr _ _ _ _ _ =>
    match r, hr.1 with
    | d :: u, _ =>
      exact ⟨d, u ++ c :: s2, rfl, (hr.2.1 d (List.mem_cons_self _ _)).1⟩

theorem alt_last_word {s : Str} (h : Alt s) :
    ∀ x ∈ s.getLast?, isWordChar x = true := by
  induction h with
  | nil => simp
  | last r hr =>
    intro x hx
    exact (hr.2.1 x (List.mem_of_mem_getLast? hx)).1
  | seg r c s2 hr _ _ hne _ ih =>
    intro x hx
    apply ih
    rw [List.getLast?_append_cons] at hx
    rw [show (c :: s2) = [c] ++ s2 from rfl,
      List.getLast?_append_of_ne_nil _ hne] at hx
    exact hx

theorem chain'_of_pointwise {α : Type} {R : α → α → Prop} :
    ∀ (l : List α), (∀ a ∈ l, ∀ b, R a b) → List.Chain' R l
  | [], _ => List.chain'_nil
  | [_], _ => List.chain'_singleton _
  | a :: b :: l, h => by
    rw [List.chain'_cons]
    exact ⟨h a (List.mem_cons_self _ _) b,
      chain'_of_pointwise (b :: l)
        (fun x hx => h x (List.mem_cons_of_mem _ hx))⟩

theorem alt_chain {R : Char → Char → Prop} {s : Str} (h : Alt s)
    (h1 : ∀ r, goodRun r → List.Chain' R r)
    (h2 : ∀ a b, isWordChar a = true → isWS b = true → R a b)
    (h3 : ∀ a b, isWS a = true → isWordChar b = true → R a b) :
    List.Chain' R s := by
  induction h with
  | nil => exact List.chain'_nil
  | last r hr => exact h1 r hr
  | seg r c s2 hr _ hc hne hs ih =>
    rw [List.chain'_append]
    refine ⟨h1 r hr, ?_, ?_⟩
    · rw [List.chain'_cons']
      refine ⟨?_, ih⟩
      intro y hy
      obtain ⟨d, u, hdu, hd⟩ := alt_head hs hne
      rw [hdu] at hy
      simp only [List.head?_cons, Option.mem_def, Option.some_inj] at hy
      subst hy
      exact h3 c d hc hd
    · intro x hx y hy
      simp only [List.head?_cons, Option.mem_def, Option.some_inj] at hy
      subst hy
      exact h2 x c (hr.2.1 x (List.mem_of_mem_getLast? hx)).1 hc

theorem alt_all_chars {s : Str} (h : Alt s) :
    ∀ c ∈ s, (isWordChar c = true ∨ isWS c = true) ∧
      ¬('a' ≤ c ∧ c ≤ 'z') := by
  induction h with
  | nil => simp
  | last r hr =>
    intro c hc
    exact ⟨Or.inl (hr.2.1 c hc).1, (hr.2.1 c hc).2⟩
  | seg r c0 s2 hr _ hc0 _ _ ih =>
    intro c hc
    rcases List.mem_append.mp hc with hh | hh
    · exact ⟨Or.inl (hr.2.1 c hh).1, (hr.2.1 c hh).2⟩
    · rcases List.mem_cons.mp hh with hh2 | hh2
      · subst hh2
        exact ⟨Or.inr hc0, ws_not_lower hc0⟩
      · exact ih c hh2

theorem alt_chain_ww {s : Str} (h : Alt s) :
    List.Chain' (fun a b => ¬(isWS a = true ∧ isWS b = true)) s := by
  refine alt_chain h ?_ ?_ ?_
  · intro r hr
    refine chain'_of_pointwise r ?_
    intro a ha b hab
    rw [word_not_ws (hr.2.1 a ha).1] at hab
    exact Bool.false_ne_true hab.1
  · intro a b ha _ hab
    rw [word_not_ws ha] at hab
    exact Bool.false_ne_true hab.1
  · intro a b _ hb hab
    rw [word_not_ws hb] at hab
    exact Bool.false_ne_true hab.2

theorem alt_chain_pattern1 {s : Str} (h : Alt s) :
    List.Chain' (fun a b => (isUpperAZ a && isDigit09 b) = false) s := by
  refine alt_chain h ?_ ?_ ?_
  · intro r hr
    exact (adjOK_chain' _ r hr.2.2.2).imp
      (fun a b h => (Bool.or_eq_false_iff.mp h).1)
  · intro a b _ hb
    rw [(ws_not_upper_digit hb).2]
    simp
  · intro a b ha _
    rw [(ws_not_upper_digit ha).1]
    simp

theorem alt_chain_pattern2 {s : Str} (h : Alt s) :
    List.Chain' (fun a b => (isDigit09 a && isUpperAZ b) = false) s := by
  refine alt_chain h ?_ ?_ ?_
  · intro r hr
    exact (adjOK_chain' _ r hr.2.2.2).imp
      (fun a b h => (Bool.or_eq_false_iff.mp h).2)
  · intro a b _ hb
    rw [(ws_not_upper_digit hb).1]
    simp
  · intro a b ha _
    rw [(ws_not_upper_digit ha).2]
    simp

theorem takeWhile_run {p : Char → Bool} :
    ∀ (r : Str) (c : Char) (y : Str), (∀ x ∈ r, p x = true) →
    p c = false →
    (r ++ c :: y).takeWhile p = r ∧ (r ++ c :: y).dropWhile p = c :: y
  | [], c, y, _, hc => by
    simp [List.takeWhile_cons, List.dropWhile_cons, hc]
  | d :: r2, c, y, h, hc => by
    have hd := h d (List.mem_cons_self _ _)
    have ih := takeWhile_run r2 c y
      (fun x hx => h x (List.mem_cons_of_mem _ hx)) hc
    simp only [List.cons_append, List.takeWhile_cons,
      List.dropWhile_cons, hd, if_true]
    exact ⟨by rw [ih.1], by rw [ih.2]⟩

theorem takeWhile_all {p : Char → Bool} :
    ∀ (r : Str), (∀ x ∈ r, p x = true) →
    r.takeWhile p = r ∧ r.dropWhile p = []
  | [], _ => ⟨rfl, rfl⟩
  | d :: r2, h => by
    have hd := h d (List.mem_cons_self _ _)
    have ih := takeWhile_all r2 (fun x hx => h x (List.mem_cons_of_mem _ hx))
    simp only [List.takeWhile_cons, List.dropWhile_cons, hd, if_true]
    exact ⟨by rw [ih.1], ih.2⟩

theorem w8Run_short {r : Str} (h : r.length < 8) : w8Run r = r := by
  rw [w8Run_eq, if_neg (by omega)]

theorem w8Run_eight {r : Str} (h : r.length = 8) :
    w8Run r = r ++ [' '] := by
  rw [w8Run_eq, if_pos (by omega)]
  rw [List.take_of_length_le (by omega), List.drop_eq_nil_of_le (by omega)]
  rfl

theorem w8Run_head (d : Char) (t : Str) :
    ∃ u, w8Run (d :: t) = d :: u := by
  rw [w8Run_eq]
  by_cases h : 8 ≤ (d :: t).length
  · rw [if_pos h]
    exact ⟨_, by rw [List.take_succ_cons, List.cons_append]⟩
  · rw [if_neg h]
    exact ⟨t, rfl⟩

theorem pyW8_head {d : Char} (hd : isWordChar d = true) (t : Str) :
    ∃ u, pyW8 (d :: t) = d :: u := by
  rw [pyW8_cons, if_pos hd]
  have : (d :: t).takeWhile isWordChar =
      d :: t.takeWhile isWordChar := by
    simp [List.takeWhile_cons, hd]
  rw [this]
  obtain ⟨u, hu⟩ := w8Run_head d (t.takeWhile isWordChar)
  exact ⟨_, by rw [hu, List.cons_append]⟩

theorem run_not_ws {r : Str} (hr : goodRun r) :
    ∀ c ∈ r, isWS c = false :=
  fun c hc => word_not_ws (hr.2.1 c hc).1

/-- The eight-character cap followed by the second whitespace collapse
restores a clean alternating string, possibly with one trailing space
(inserted after a final run of exactly eight characters). -/
theorem alt_collapse_w8 {s : Str} (h : Alt s) :
    pyCollapse (pyW8 s) = s ∨ pyCollapse (pyW8 s) = s ++ [' '] := by
  induction h with
  | nil => exact Or.inl rfl
  | last r hr =>
    match r, hr.1 with
    | d :: r2, _ =>
      have hword : ∀ x ∈ d :: r2, isWordChar x = true :=
        fun x hx => (hr.2.1 x hx).1
      have htw := takeWhile_all (p := isWordChar) (d :: r2) hword
      rw [pyW8_cons, if_pos (hword d (List.mem_cons_self _ _)), htw.1,
        htw.2, pyW8_nil, List.append_nil]
      by_cases h8 : (d :: r2).length = 8
      · rw [w8Run_eight h8,
          pyCollapse_words_append [' '] (run_not_ws hr)]
        right
        rw [show pyCollapse [' '] = [' '] from by
          rw [pyCollapse_cons, if_pos (by decide)]
          rfl]
      · rw [w8Run_short (by have := hr.2.2.1; omega),
          pyCollapse_words (run_not_ws hr)]
        exact Or.inl rfl
  | seg r c s2 hr h8c hc hne hs ih =>
    match r, hr.1 with
    | d :: r2, _ =>
      have hword : ∀ x ∈ d :: r2, isWordChar x = true :=
        fun x hx => (hr.2.1 x hx).1
      have htw := takeWhile_run (p := isWordChar) (d :: r2) c s2 hword
        (ws_not_word hc)
      obtain ⟨e, s2t, hs2, he⟩ := alt_head hs hne
      obtain ⟨u, hu⟩ := pyW8_head he s2t
      have hpw : pyW8 ((d :: r2) ++ c :: s2) =
          w8Run (d :: r2) ++ c :: pyW8 s2 := by
        rw [show (d :: r2) ++ c :: s2 = d :: (r2 ++ c :: s2) from rfl,
          pyW8_cons, if_pos (hword d (List.mem_cons_self _ _))]
        rw [show d :: (r2 ++ c :: s2) = (d :: r2) ++ c :: s2 from rfl,
          htw.1, htw.2]
        rw [pyW8_cons, if_neg (by rw [ws_not_word hc]; exact
          Bool.false_ne_true)]
      by_cases h8 : (d :: r2).length = 8
      · have hcsp : c = ' ' := h8c h8
        subst hcsp
        rw [hpw, w8Run_eight h8]
        rw [List.append_assoc, List.singleton_append]
        rw [pyCollapse_words_append _ (run_not_ws hr)]
        have hcol : pyCollapse (' ' :: ' ' :: pyW8 s2) =
            ' ' :: pyCollapse (pyW8 s2) := by
          rw [pyCollapse_cons, if_pos (by decide)]
          rw [hs2, hu]
          have hsp : isWS ' ' = true := by decide
          have hse : isWS e = false := word_not_ws he
          have : ((' ' : Char) :: ' ' :: e :: u).takeWhile isWS =
              [' ', ' '] := by
            simp [List.takeWhile_cons, hsp, hse]
          rw [this]
          have : ((' ' : Char) :: ' ' :: e :: u).dropWhile isWS =
              e :: u := by
            simp [List.dropWhile_cons, hsp, hse]
          rw [this, collapseRun_double]
          rw [← hu, ← hs2]
          rfl
        rw [hcol]
        rcases ih with hih | hih
        · rw [hih]
          left
          simp
        · rw [hih]
          right
          simp
      · rw [hpw, w8Run_short (by have := hr.2.2.1; omega)]
        rw [pyCollapse_words_append _ (run_not_ws hr)]
        have hcol : pyCollapse (c :: pyW8 s2) =
            c :: pyCollapse (pyW8 s2) := by
          rw [pyCollapse_cons, if_pos hc]
          rw [hs2, hu]
          have : (c :: e :: u).takeWhile isWS = [c] := by
            simp [List.takeWhile_cons, hc, word_not_ws he]
          rw [this]
          have : (c :: e :: u).dropWhile isWS = e :: u := by
            simp [List.dropWhile_cons, hc, word_not_ws he]
          rw [this, collapseRun_single]
          rw [← hu, ← hs2]
          rfl
        rw [hcol]
        rcases ih with hih | hih
        · rw [hih]
          left
          simp
        · rw [hih]
          right
          simp

theorem tokAlt_no_space {t : Str} (h : TokAlt t) : ' ' ∉ t := by
  induction h with
  | last r hr =>
    intro hsp
    exact absurd (hr.2.1 ' ' hsp).1 (by decide)
  | seg r c s hr _ _ hcs _ ih =>
    intro hsp
    rcases List.mem_append.mp hsp with hh | hh
    · exact absurd (hr.2.1 ' ' hh).1 (by decide)
    · rcases List.mem_cons.mp hh with hh2 | hh2
      · exact hcs hh2.symm
      · exact ih hh2

theorem joinSpace_ne : ∀ (ts : List Str), ts ≠ [] →
    (∀ t ∈ ts, t ≠ []) → joinSpace ts ≠ []
  | [], h, _ => absurd rfl h
  | [t], _, h => by
    unfold joinSpace
    exact h t (List.mem_cons_self _ _)
  | t :: t2 :: ts, _, h => by
    show t ++ ' ' :: joinSpace (t2 :: ts) ≠ []
    simp

theorem tokAlt_prepend {t m : Str} (ht : TokAlt t) (hm : Alt m)
    (hmne : m ≠ []) : Alt (t ++ ' ' :: m) := by
  induction ht with
  | last r hr =>
    exact Alt.seg r ' ' m hr (fun _ => rfl) (by decide) hmne hm
  | seg r c s hr h8 hc hcs hs ih =>
    rw [List.append_assoc, List.cons_append]
    exact Alt.seg r c (s ++ ' ' :: m) hr
      (fun hh => absurd hh (by omega)) hc (by simp) ih

theorem join_alt : ∀ (ts : List Str), ts ≠ [] →
    (∀ t ∈ ts, TokAlt t) → Alt (joinSpace ts)
  | [], h, _ => absurd rfl h
  | [t], _, h => by
    unfold joinSpace
    exact tokAlt_alt (h t (List.mem_cons_self _ _))
  | t :: t2 :: ts, _, h => by
    show Alt (t ++ ' ' :: joinSpace (t2 :: ts))
    exact tokAlt_prepend (h t (List.mem_cons_self _ _))
      (join_alt (t2 :: ts) (by simp)
        (fun u hu => h u (List.mem_cons_of_mem _ hu)))
      (joinSpace_ne (t2 :: ts) (by simp)
        (fun u hu => tokAlt_ne (h u (List.mem_cons_of_mem _ hu))))

/-- Re-tokenising the space-joined output reproduces the token list
whenever every token is clean (`TokAlt`). -/
theorem tokeniseStr_join (ts : List Str) (hne : ts ≠ [])
    (htok : ∀ t ∈ ts, TokAlt t) :
    tokeniseStr (joinSpace ts) = ts := by
  have halt : Alt (joinSpace ts) := join_alt ts hne htok
  have hjne : joinSpace ts ≠ [] :=
    joinSpace_ne ts hne (fun t ht => tokAlt_ne (htok t ht))
  have hchars := alt_all_chars halt
  have hhead : ∀ d ∈ (joinSpace ts).head?, isWS d = false := by
    intro d hd
    obtain ⟨d2, u, hdu, hw⟩ := alt_head halt hjne
    rw [hdu] at hd
    simp only [List.head?_cons, Option.mem_def, Option.some_inj] at hd
    subst hd
    exact word_not_ws hw
  have hlast : ∀ d ∈ (joinSpace ts).getLast?, isWS d = false :=
    fun d hd => word_not_ws (alt_last_word halt d hd)
  have hstrip : pyStrip (joinSpace ts) = joinSpace ts :=
    pyStrip_id hhead hlast
  have hupper : (joinSpace ts).map pyToUpper = joinSpace ts :=
    map_pyToUpper_id (fun c hc => (hchars c hc).2)
  have hcoll : pyCollapse (joinSpace ts) = joinSpace ts :=
    pyCollapse_id (alt_chain_ww halt)
  have hpunct : punctToSpace (joinSpace ts) = joinSpace ts :=
    punctToSpace_id (fun c hc => (hchars c hc).1)
  have hib1 : insertBetween (fun a b => isUpperAZ a && isDigit09 b)
      (joinSpace ts) = joinSpace ts :=
    insertBetween_id _ _ (alt_chain_pattern1 halt)
  have hib2 : insertBetween (fun a b => isDigit09 a && isUpperAZ b)
      (joinSpace ts) = joinSpace ts :=
    insertBetween_id _ _ (alt_chain_pattern2 halt)
  have hsplit : splitOnSpace (joinSpace ts) = ts :=
    joinSpace_split ts hne (fun t ht => tokAlt_no_space (htok t ht))
  unfold tokeniseStr
  rw [if_neg (by rw [hstrip]; exact hjne)]
  dsimp only
  rw [hupper, hcoll, hpunct]
  have hgate : (if 5 < (joinSpace ts).length then
      insertBetween (fun a b => isDigit09 a && isUpperAZ b)
        (insertBetween (fun a b => isUpperAZ a && isDigit09 b)
          (joinSpace ts)) else joinSpace ts) = joinSpace ts := by
    by_cases hg : 5 < (joinSpace ts).length
    · rw [if_pos hg, hib1, hib2]
    · rw [if_neg hg]
  rw [hgate]
  rcases alt_collapse_w8 halt with hW | hW
  · rw [hW, hstrip, hsplit]
  · rw [hW, pyStrip_append_space hjne hhead hlast, hsplit]

/-- C8: evaluating the code at the failing input.  `tokenise(".")`
returns `[""]` (one empty token: the dot becomes a space, which
`strip` removes, and `"".split(" ")` is `[""]`), but re-tokenising the
joined output `""` returns `[]` — so tokenise is not idempotent under
re-tokenisation of its joined output. -/
theorem C8_tokenise_counterexample :
    tokeniseValue (.pystr ['.']) = [[]] ∧
    joinSpace (tokeniseValue (.pystr ['.'])) = [] ∧
    tokeniseValue (.pystr (joinSpace (tokeniseValue (.pystr ['.'])))) =
      [] ∧
    ([] : List Str) ≠ [[]] :=
  ⟨rfl, rfl, rfl, by decide⟩

/-- C8 (amended): the tokeniser is deterministic (equal values give
equal token lists), and it is idempotent under re-tokenisation of its
joined output whenever that output is nonempty and every token is
clean: nonempty, made of at-most-eight-character runs of
non-lowercase word characters (interior runs strictly shorter than
eight) separated by single non-space whitespace characters, with no
uppercase-letter/digit adjacency.  The unconditional claim is false
(`C8_tokenise_counterexample`): outputs with empty tokens, tokens
with edge whitespace (from whitespace runs longer than the regex
bound of 100), or doubled whitespace re-tokenise differently. -/
theorem C8_tokenise_amended (v w : PyValue) (ts : List Str)
    (hvw : v = w) (h0 : tokeniseValue v = ts) (hne : ts ≠ [])
    (htok : ∀ t ∈ ts, TokAlt t) :
    tokeniseValue w = ts ∧
    tokeniseValue (.pystr (joinSpace ts)) = ts := by
  constructor
  · rw [← hvw]
    exact h0
  · show tokeniseStr (joinSpace ts) = ts
    exact tokeniseStr_join ts hne htok

/-- C8 amended applied at a concrete input: `"bob jones"` tokenises
to `["BOB", "JONES"]`, whose tokens are clean, and re-tokenising
`"BOB JONES"` reproduces the same list. -/
theorem C8_tokenise_amended_witness :
    (PyValue.pystr ['b', 'o', 'b', ' ', 'j', 'o', 'n', 'e', 's'] =
      PyValue.pystr ['b', 'o', 'b', ' ', 'j', 'o', 'n', 'e', 's']) ∧
    tokeniseValue
      (.pystr ['b', 'o', 'b', ' ', 'j', 'o', 'n', 'e', 's']) =
      [['B', 'O', 'B'], ['J', 'O', 'N', 'E', 'S']] ∧
    ([['B', 'O', 'B'], ['J', 'O', 'N', 'E', 'S']] : List Str) ≠ [] ∧
    (tokeniseValue
      (.pystr ['b', 'o', 'b', ' ', 'j', 'o', 'n', 'e', 's']) =
      [['B', 'O', 'B'], ['J', 'O', 'N', 'E', 'S']] ∧
     tokeniseValue (.pystr (joinSpace
       [['B', 'O', 'B'], ['J', 'O', 'N', 'E', 'S']])) =
      [['B', 'O', 'B'], ['J', 'O', 'N', 'E', 'S']]) := by
  refine ⟨rfl, rfl, by decide, ?_⟩
  refine C8_tokenise_amended _ _ _ rfl rfl (by decide) ?_
  intro t ht
  rcases List.mem_cons.mp ht with h | h
  · subst h
    exact TokAlt.last _ (by decide)
  · rcases List.mem_cons.mp h with h2 | h2
    · subst h2
      exact TokAlt.last _ (by decide)
    · cases h2

end Fuzzy
